import Mathlib

/-!
Verification of `rice/embed-syso.go`: the names derived from a box name, the
output files of `operationEmbedSyso`, the COFF object of `createCoffSyso`, and
the box that the `filepath.Walk` callback builds.

Go strings are modelled by `Str`, the list of their characters (runes); a Go
string that holds valid UTF-8 is exactly such a list.  `regexp` works on runes.
The `strings` functions work on bytes, but every pattern the program hands them
(`/`, `..`, `\`) is ASCII and an ASCII byte never occurs inside the encoding of
another rune, so on valid UTF-8 their results are the same read as runes.
Lengths and positions of strings are counted in characters.

The file system is modelled by what a successful walk reads from it: for each
directory the list of its entries in the order `filepath.Walk` takes them, for
each file its content.  The paths handed to the callback are built as
`filepath.Join` builds them from the root path `boxPath`, itself a result of
`filepath.Join` (line 87) and so a cleaned path.  Errors of the file system (an entry that cannot be
read, a write that fails) are parameters of the functions that meet them or are
left out, as the definitions say.
-/

namespace GoRice



/-! ## Go strings and the `strings` functions the program calls -/

/-- A Go string (valid UTF-8), as the list of its characters. -/
abbrev Str := List Char

/-- Go `strings.HasPrefix(s, pre)`. -/
def HasPrefix (s pre : Str) : Bool := pre.isPrefixOf s

/-- Go `strings.TrimPrefix(s, pre)`: `s` without the leading `pre`, or `s`
itself when it does not start with `pre`. -/
def TrimPrefix (s pre : Str) : Str :=
  if HasPrefix s pre then s.drop pre.length else s

/-- The scan of `strings.Replace(s, old, new, -1)` for a non-empty `old`:
matches are found left to right and do not overlap.  `skip` counts the
characters of the current match that are still to be passed over. -/
def replaceGo (old new : Str) : Nat → Str → Str
  | _, [] => []
  | skip + 1, _ :: cs => replaceGo old new skip cs
  | 0, c :: cs =>
    if HasPrefix (c :: cs) old then new ++ replaceGo old new (old.length - 1) cs
    else c :: replaceGo old new 0 cs

/-- Go `strings.Replace(s, old, new, -1)`.  With an empty `old` the
replacement is inserted before every character and at the end. -/
def Replace (s old new : Str) : Str :=
  if old = [] then new ++ s.flatMap (fun c => c :: new)
  else replaceGo old new 0 s

/-- The scan of `strings.Split(s, sep)` for a non-empty `sep`. -/
def splitGo (sep : Str) : Nat → Str → List Str
  | _, [] => [[]]
  | skip + 1, _ :: cs => splitGo sep skip cs
  | 0, c :: cs =>
    if HasPrefix (c :: cs) sep then [] :: splitGo sep (sep.length - 1) cs
    else
      match splitGo sep 0 cs with
      | [] => [[c]]
      | p :: ps => (c :: p) :: ps

/-- Go `strings.Split(s, sep)`.  With an empty `sep` the string is split into
its characters. -/
def Split (s sep : Str) : List Str :=
  if sep = [] then s.map (fun c => [c]) else splitGo sep 0 s

/-- Go `strings.Join(parts, sep)`. -/
def Join : List Str → Str → Str
  | [], _ => []
  | [a], _ => a
  | a :: b :: rest, sep => a ++ sep ++ Join (b :: rest) sep

/-! ## `regexp`: a single character class -/

/-- The character class `[^a-z0-9_]` compiled into `regexpSynameReplacer`
(line 73): whether a character matches it. -/
def regexpSynameReplacer (c : Char) : Bool :=
  !(('a' ≤ c && c ≤ 'z') || ('0' ≤ c && c ≤ '9') || c == '_')

/-- Go `(*Regexp).ReplaceAllString(src, repl)` for a pattern that is one
character class and a replacement without `$`: every match is one character,
matches are taken left to right, and each is replaced by `repl`. -/
def ReplaceAllString (re : Char → Bool) (src repl : Str) : Str :=
  src.flatMap (fun c => if re c then repl else [c])

/-! ## Names derived from a box name (`operationEmbedSyso`) -/

/-- Line 155: `symname := regexpSynameReplacer.ReplaceAllString(boxname, "_")`. -/
def symname (boxname : Str) : Str :=
  ReplaceAllString regexpSynameReplacer boxname "_".toList

/-- Lines 88-89: `boxFilename`, first `/` to `-`, then `..` to `back`. -/
def boxFilename (boxname : Str) : Str :=
  Replace (Replace boxname "/".toList "-".toList) "..".toList "back".toList

/-- The filename derivation as the specification words it:
`replace(replace(boxName, "..", "back"), "/", "-")`. -/
def specBoxFilename (boxname : Str) : Str :=
  Replace (Replace boxname "..".toList "back".toList) "/".toList "-".toList

/-- The length of a Go string in bytes, Go `len(s)`: the sizes of the UTF-8
encodings of its characters. -/
def byteLen (s : Str) : Nat := (s.map Char.utf8Size).sum

/-- Membership in the character set `[a-z0-9_]`. -/
def InSymSet (c : Char) : Prop :=
  ('a' ≤ c ∧ c ≤ 'z') ∨ ('0' ≤ c ∧ c ≤ '9') ∨ c = '_'

/-! ## The COFF object, `createCoffSyso` and the files written for a box -/

/-- A byte sequence (`[]byte`, or the bytes a `coff.Sizer` yields). -/
abbrev Bytes := List UInt8

/-- Go `sizedBytes.Size` (lines 22-24): the number of bytes. -/
def sizedBytes.Size (s : Bytes) : Nat := s.length

/-- The fields of `coff.Coff` (package `github.com/akavel/rsrc/coff`, imported,
not part of this source tree) that `createCoffSyso` reaches: the file header's
machine field and the named data items in the order they were added. -/
structure Coff where
  Machine : Nat
  Symbols : List Str
  Data : List Bytes
  SizeOfRawData : Nat
  frozen : Bool
deriving DecidableEq, Repr

/-- Modelled from the spec: `coff.NewRDATA` is library code outside the source
tree; the new object has no data yet and its machine field holds the library's
default, taken here as the parameter `defaultMachine`. -/
def NewRDATA (defaultMachine : Nat) : Coff :=
  { Machine := defaultMachine, Symbols := [], Data := [], SizeOfRawData := 0, frozen := false }

/-- Modelled from the spec: `(*Coff).AddData` is library code outside the source
tree; it adds one named data item after those already present and leaves the
file header's machine field alone.  Where in the section the library binds the
symbol is not modelled. -/
def Coff.AddData (c : Coff) (symbol : Str) (data : Bytes) : Coff :=
  { c with
    Symbols := c.Symbols ++ [symbol]
    Data := c.Data ++ [data]
    SizeOfRawData := c.SizeOfRawData + sizedBytes.Size data }

/-- Modelled from the spec: `(*Coff).Freeze` is library code outside the source
tree; it fixes the layout and leaves the machine field and the data alone. -/
def Coff.Freeze (c : Coff) : Coff := { c with frozen := true }

/-- How a call ends: it returns, it panics, or it ends the process with
`os.Exit`. -/
inductive Outcome (α : Type) where
  | done (a : α)
  | panic (msg : Str)
  | exit (code : Nat)
deriving DecidableEq, Repr

/-- The file `createCoffSyso` writes: the object handed to `writeCoff` and the
path handed with it. -/
structure SysoFile where
  path : Str
  obj : Coff
deriving DecidableEq, Repr

/-- Lines 177-194, `createCoffSyso(boxFilename, symname, arch, data)`.
`writeCoff` (another file of the package) is a parameter: it returns `none` on
success and the error otherwise.  The result names the file written. -/
def createCoffSyso (defaultMachine : Nat) (writeCoff : Coff → Str → Option Str)
    (boxFilename symname arch : Str) (data : Bytes) : Outcome SysoFile :=
  let boxCoff := NewRDATA defaultMachine
  let switched : Option Coff :=
    if arch = "386".toList then some boxCoff
    else if arch = "amd64".toList then some { boxCoff with Machine := 0x8664 }
    else none
  match switched with
  | none => .panic "invalid arch".toList
  | some boxCoff =>
    let boxCoff := boxCoff.AddData ("_bricebox_".toList ++ symname) data
    let boxCoff := boxCoff.AddData ("_ericebox_".toList ++ symname) [0, 0]
    let boxCoff := boxCoff.Freeze
    let path := boxFilename ++ "_".toList ++ arch ++ ".rice-box.syso".toList
    match writeCoff boxCoff path with
    | some _ => .exit 1
    | none => .done { path := path, obj := boxCoff }

/-- Go `embeddedSysoHelperData` (lines 66-69). -/
structure embeddedSysoHelperData where
  Package : Str
  Symname : Str
deriving DecidableEq, Repr

/-- What one round of the loop in `operationEmbedSyso` leaves on disk. -/
structure BoxOutput where
  syso386 : SysoFile
  sysoAmd64 : SysoFile
  helperPath : Str
  helperData : embeddedSysoHelperData
deriving DecidableEq, Repr

/-- Lines 146-173 of `operationEmbedSyso`, one round of the loop after the
walk: `gob` is the result of encoding the box (`none` for an encoding error),
`osCreate` tells whether `os.Create` succeeds on a path.  The template is
executed on `sysoHelperData`; that it cannot fail on this data is assumed. -/
def operationEmbedSysoEmit (defaultMachine : Nat) (writeCoff : Coff → Str → Option Str)
    (osCreate : Str → Bool) (pkgName boxname : Str) (gob : Option Bytes) :
    Outcome BoxOutput :=
  let boxFilename := boxFilename boxname
  match gob with
  | none => .exit 1
  | some boxGobBuf =>
    let symname := symname boxname
    match createCoffSyso defaultMachine writeCoff boxname symname "386".toList boxGobBuf with
    | .panic m => .panic m
    | .exit n => .exit n
    | .done f386 =>
      match createCoffSyso defaultMachine writeCoff boxname symname "amd64".toList boxGobBuf with
      | .panic m => .panic m
      | .exit n => .exit n
      | .done fAmd64 =>
        let sysoHelperData : embeddedSysoHelperData := { Package := pkgName, Symname := symname }
        let helperPath := boxFilename ++ ".rice-box.go".toList
        if osCreate helperPath then
          .done { syso386 := f386, sysoAmd64 := fAmd64, helperPath := helperPath,
                  helperData := sysoHelperData }
        else .exit 1

/-! ## The box and the walk callback -/

/-- Go `os.FileInfo`, as far as the callback reads it. -/
structure FileInfo where
  IsDir : Bool
  ModTime : Nat
deriving DecidableEq, Repr

/-- Go `embedded.EmbeddedFile`, the fields the callback sets. -/
structure EmbeddedFile where
  Filename : Str
  FileModTime : Nat
  Content : Bytes
deriving DecidableEq, Repr

/-- Go `embedded.EmbeddedDir`, the fields the callback sets.  `ChildDirs` is a
slice of pointers: each element is the address of a directory object. -/
structure EmbeddedDir where
  Filename : Str
  DirModTime : Nat
  ChildDirs : List Nat
deriving DecidableEq, Repr

/-- A Go `map[string]V`: the bindings, the latest first; a later binding of a
key hides the earlier one. -/
abbrev GoMap (V : Type) := List (Str × V)

/-- Go `m[k]`: the value bound to `k`, or `none` (the zero value, a nil
pointer for the maps of the box). -/
def GoMap.get {V : Type} : GoMap V → Str → Option V
  | [], _ => none
  | (k, v) :: rest, key => if key = k then some v else GoMap.get rest key

/-- Go `m[k] = v`. -/
def GoMap.set {V : Type} (m : GoMap V) (k : Str) (v : V) : GoMap V := (k, v) :: m

/-- Whether `k` is a key of the map. -/
def GoMap.has {V : Type} (m : GoMap V) (k : Str) : Bool := (m.get k).isSome

/-- Go `embedded.EmbeddedBox`, the fields set at lines 96-102.  `Dirs` maps a
path to the address of its directory object. -/
structure EmbeddedBox where
  Name : Str
  Time : Nat
  Files : GoMap EmbeddedFile
  Dirs : GoMap Nat
deriving DecidableEq, Repr

/-- The box under construction together with the directory objects allocated so
far; the address of an object is its position in `heap`. -/
structure BoxState where
  box : EmbeddedBox
  heap : List EmbeddedDir
deriving DecidableEq, Repr

/-- Lines 96-102: the empty box. -/
def newBox (boxname : Str) (now : Nat) : BoxState :=
  { box := { Name := boxname, Time := now, Files := [], Dirs := [] }, heap := [] }

/-- Lines 111-113: the name the callback derives from the path it is handed. -/
def deriveFilename (boxPath path : Str) : Str :=
  let filename := TrimPrefix path boxPath
  let filename := Replace filename "\\".toList "/".toList
  TrimPrefix filename "/".toList

/-- Line 126, `parentDir.ChildDirs = append(parentDir.ChildDirs, embeddedDir)`
through the pointer `parentDir`. -/
def appendChild (heap : List EmbeddedDir) (parentDir embeddedDir : Nat) : List EmbeddedDir :=
  heap.modify (fun d => { d with ChildDirs := d.ChildDirs ++ [embeddedDir] }) parentDir

/-- The parent path the callback computes at lines 124-125: the path split at
`/`, without its last segment, joined again. -/
def parentPath (filename : Str) : Str :=
  let pathParts := Split filename "/".toList
  Join (pathParts.take (pathParts.length - 1)) "/".toList

/-- Lines 114-143: what the callback does with the derived `filename`.  `none`
is the nil-pointer panic of line 126, when `box.Dirs` has no entry for the
parent path.  `content` is what `ioutil.ReadFile(path)` returns. -/
def record (st : BoxState) (filename : Str) (info : FileInfo) (content : Bytes) :
    Option BoxState :=
  if info.IsDir then
    let embeddedDir := st.heap.length
    let heap := st.heap ++ [{ Filename := filename, DirModTime := info.ModTime, ChildDirs := [] }]
    let dirs := st.box.Dirs.set filename embeddedDir
    if filename ≠ [] then
      let pathParts := Split filename "/".toList
      match dirs.get (Join (pathParts.take (pathParts.length - 1)) "/".toList) with
      | none => none
      | some parentDir =>
        some { box := { st.box with Dirs := dirs }, heap := appendChild heap parentDir embeddedDir }
    else
      some { box := { st.box with Dirs := dirs }, heap := heap }
  else
    let embeddedFile : EmbeddedFile :=
      { Filename := filename, FileModTime := info.ModTime, Content := content }
    some { st with box := { st.box with Files := st.box.Files.set filename embeddedFile } }

/-- Lines 105-144: the callback handed to `filepath.Walk`, called without an
error (`err == nil`) on an entry whose content can be read. -/
def walkFn (boxPath : Str) (st : BoxState) (path : Str) (info : FileInfo) (content : Bytes) :
    Option BoxState :=
  record st (deriveFilename boxPath path) info content

/-! ## The directory tree and `filepath.Walk` -/

/-- The entries of a directory in the order `filepath.Walk` takes them: empty,
or a first entry (a file with its content, or a directory with its own
entries) and the entries after it. -/
inductive Listing where
  | nil
  | file (name : Str) (modTime : Nat) (content : Bytes) (rest : Listing)
  | dir (name : Str) (modTime : Nat) (entries : Listing) (rest : Listing)
deriving DecidableEq, Repr

/-- An ASCII letter, the name of a Windows drive. -/
def isLetter (c : Char) : Bool := ('a' ≤ c && c ≤ 'z') || ('A' ≤ c && c ≤ 'Z')

/-- The cleaned path of the current directory of a Windows drive, such as
`C:.` (the volume `C:` followed by `.`). -/
def isDriveDot : Str → Bool
  | [c, d, e] => isLetter c && d == ':' && e == '.'
  | _ => false

/-- Go `filepath.Join(dir, name)` as `filepath.Walk` uses it, with path
separator `sep` (`/`, or `\` on Windows): the cleaned form of `dir`, the
separator, `name`, where `dir` is a cleaned directory path the walk was handed
or built and `name` an entry name read from that directory (not empty, without
separator, not `.` or `..`).  Cleaning drops an empty `dir` and the current
directory `.` (on Windows also after a drive, `C:.`), and writes no second
separator after a `dir` that ends in one (a root such as `/` or `C:\`). -/
def filepathJoin (sep : Char) (dir name : Str) : Str :=
  if dir = [] ∨ dir = ['.'] then name
  else if sep = '\\' ∧ isDriveDot dir = true then dir.take 2 ++ name
  else if dir.getLast? = some sep then dir ++ name
  else dir ++ sep :: name

/-- Go `filepath.Walk` below a directory `dir`: each entry is handed to the
callback before the entries inside it, and before the entries after it. -/
def walkListing (fn : BoxState → Str → FileInfo → Bytes → Option BoxState) (sep : Char) :
    Str → Listing → BoxState → Option BoxState
  | _, .nil, st => some st
  | dir, .file name modTime content rest, st =>
    (fn st (filepathJoin sep dir name) { IsDir := false, ModTime := modTime } content).bind
      (walkListing fn sep dir rest)
  | dir, .dir name modTime entries rest, st =>
    ((fn st (filepathJoin sep dir name) { IsDir := true, ModTime := modTime } []).bind
      (walkListing fn sep (filepathJoin sep dir name) entries)).bind
      (walkListing fn sep dir rest)

/-- Go `filepath.Walk(root, fn)` on a root that is a directory. -/
def Walk (fn : BoxState → Str → FileInfo → Bytes → Option BoxState) (sep : Char)
    (root : Str) (rootModTime : Nat) (entries : Listing) (st : BoxState) : Option BoxState :=
  (fn st root { IsDir := true, ModTime := rootModTime } []).bind (walkListing fn sep root entries)

/-- Lines 96-144: the box `operationEmbedSyso` builds for the directory at
`boxPath`. -/
def buildBox (sep : Char) (boxname boxPath : Str) (now rootModTime : Nat) (entries : Listing) :
    Option BoxState :=
  Walk (walkFn boxPath) sep boxPath rootModTime entries (newBox boxname now)

/-! ## The calls of the walk, and trees with well-formed names -/

/-- One call of the callback: the path `filepath.Walk` hands it, the entry's
names from the root directory down to the entry (`segs`, empty for the root),
the entry's `FileInfo` and the content read from it. -/
structure Visit where
  path : Str
  segs : List Str
  info : FileInfo
  content : Bytes
deriving DecidableEq, Repr

/-- The calls `walkListing` makes below the directory with path `dir` and names
`pre`, in order. -/
def walkVisits (sep : Char) : Str → List Str → Listing → List Visit
  | _, _, .nil => []
  | dir, pre, .file name modTime content rest =>
    { path := filepathJoin sep dir name, segs := pre ++ [name],
      info := { IsDir := false, ModTime := modTime }, content := content } ::
      walkVisits sep dir pre rest
  | dir, pre, .dir name modTime entries rest =>
    { path := filepathJoin sep dir name, segs := pre ++ [name],
      info := { IsDir := true, ModTime := modTime }, content := [] } ::
      (walkVisits sep (filepathJoin sep dir name) (pre ++ [name]) entries ++
        walkVisits sep dir pre rest)

/-- The calls `Walk` makes: the root directory first, then its entries. -/
def allVisits (sep : Char) (root : Str) (rootModTime : Nat) (entries : Listing) : List Visit :=
  { path := root, segs := [], info := { IsDir := true, ModTime := rootModTime }, content := [] } ::
    walkVisits sep root [] entries

/-- The names of the entries of a directory. -/
def Listing.names : Listing → List Str
  | .nil => []
  | .file name _ _ rest => name :: rest.names
  | .dir name _ _ rest => name :: rest.names

/-- Every entry name of the tree satisfies `p`. -/
def Listing.allNames (p : Str → Bool) : Listing → Bool
  | .nil => true
  | .file name _ _ rest => p name && rest.allNames p
  | .dir name _ entries rest => p name && entries.allNames p && rest.allNames p

/-- No two entries of one directory have the same name, throughout the tree. -/
def Listing.distinct : Listing → Bool
  | .nil => true
  | .file name _ _ rest => !rest.names.contains name && rest.distinct
  | .dir name _ entries rest => !rest.names.contains name && entries.distinct && rest.distinct

/-- An entry name without `/` and without backslash. -/
def plainName (name : Str) : Bool := !name.contains '/' && !name.contains '\\'

/-- A name a directory can list where `/` separates paths: not empty, without
`/`, and not `.` or `..`. -/
def listedName (name : Str) : Bool :=
  !name.isEmpty && !name.contains '/' && !(name == ['.']) && !(name == ['.', '.'])

/-- A name a directory can list that also holds no backslash. -/
def properName (name : Str) : Bool := listedName name && !name.contains '\\'

/-- A root path below which `filepath.Join` builds every path by appending to
the root: not empty, not `.`, and on Windows not the current directory of a
drive (`C:.`).  From the other roots `Join` hands the callback paths that do
not start with the root. -/
def plainRoot (sep : Char) (boxPath : Str) : Bool :=
  !boxPath.isEmpty && !(boxPath == ['.']) && !(sep == '\\' && isDriveDot boxPath)

/-- The tree of the scenario `assets/a/b/c.txt`. -/
def nestedTree : Listing :=
  .dir "a".toList 0 (.dir "b".toList 0 (.file "c.txt".toList 0 [] .nil) .nil) .nil

/-- A tree with one file, named `a\b`; such a name is legal where the path
separator is `/`. -/
def backslashFileTree : Listing :=
  .file "a\\b".toList 0 [] .nil

/-- A tree with the file `ok.txt` and, after it in lexical order, a file named
`x\y`. -/
def mixedTree : Listing :=
  .file "ok.txt".toList 0 [] (.file "x\\y".toList 0 [] .nil)

/-! ## The invariants of the box -/

/-- No path is a key of both maps, and with every path of the box each of its
strict prefix paths is a key of `Dirs`. -/
def PathsClosed (st : BoxState) : Prop :=
  (∀ f : Str, ¬ (st.box.Files.has f = true ∧ st.box.Dirs.has f = true)) ∧
  ∀ f : Str, (st.box.Files.has f = true ∨ st.box.Dirs.has f = true) →
    ∀ k : Nat, k < (Split f "/".toList).length →
      st.box.Dirs.has (Join ((Split f "/".toList).take k) "/".toList) = true

/-! ## Definitions used in the proofs only -/

/-- The scan for `..` written out by cases; a proof device, shown equal to
`replaceGo` on that pattern in `replaceGo_dotdot`. -/
def dotdot (new : Str) : Str → Str
  | [] => []
  | [a] => [a]
  | a :: b :: rest =>
    if a = '.' ∧ b = '.' then new ++ dotdot new rest else a :: dotdot new (b :: rest)

/-- No two dots in a row. -/
def NoDotDot (s : Str) : Prop := List.Chain' (fun a b => ¬ (a = '.' ∧ b = '.')) s

/-- The separator `filepath.Join` writes between the root and the first name:
none when the root ends in the separator. -/
def rootLead (sep : Char) (boxPath : Str) : Str :=
  if boxPath.getLast? = some sep then [] else [sep]

/-- The path of the entry with names `segs` below a plain root: the root, and
for an entry other than the root the names joined by the separator. -/
def walkedPath (sep : Char) (boxPath : Str) : List Str → Str
  | [] => boxPath
  | a :: rest => boxPath ++ rootLead sep boxPath ++ Join (a :: rest) [sep]

/-- The substitution of line 112 on one character. -/
def slashed (c : Char) : Char := if c = '\\' then '/' else c

/-- An entry as the callback sees it once the name is derived. -/
structure Entry where
  name : Str
  info : FileInfo
  content : Bytes

/-- The entry the callback records for a visit whose name is derived as the
names joined by `/`. -/
def Visit.entry (v : Visit) : Entry :=
  { name := Join v.segs "/".toList, info := v.info, content := v.content }

/-- The entry the callback records for a visit: the name it derives from the
path, whatever the path. -/
def Visit.recorded (boxPath : Str) (v : Visit) : Entry :=
  { name := deriveFilename boxPath v.path, info := v.info, content := v.content }

/-- The callback applied to the entries in order. -/
def recordAll (es : List Entry) (st : BoxState) : Option BoxState :=
  es.foldlM (fun st e => record st e.name e.info e.content) st

/-- The callback applied to the visits in order. -/
def recordVisits (boxPath : Str) (vs : List Visit) (st : BoxState) : Option BoxState :=
  vs.foldlM (fun st v => walkFn boxPath st v.path v.info v.content) st

/-- The names of the directories among the entries. -/
def dirNames (es : List Entry) : List Str :=
  (es.filter (fun e => e.info.IsDir)).map (fun e => e.name)

/-- The names of the files among the entries. -/
def fileNames (es : List Entry) : List Str :=
  (es.filter (fun e => !e.info.IsDir)).map (fun e => e.name)

/-- Every directory entry with a non-empty name comes after a directory entry
named by its parent path, or the parent path is in `seen`. -/
def ParentsFirst : List Str → List Entry → Prop
  | _, [] => True
  | seen, e :: es =>
    (e.info.IsDir = true → e.name ≠ [] → parentPath e.name ∈ e.name :: seen) ∧
    ParentsFirst (if e.info.IsDir then e.name :: seen else seen) es

theorem replaceGo_skip (old new : Str) (k : Nat) (s : Str) :
    replaceGo old new k s = replaceGo old new 0 (s.drop k) := by
  induction s generalizing k with
  | nil => cases k <;> simp [replaceGo]
  | cons c cs ih =>
    cases k with
    | zero => simp
    | succ k => simp [replaceGo, ih k]

theorem replaceGo_single (a : Char) (new s : Str) :
    replaceGo [a] new 0 s = s.flatMap (fun c => if c = a then new else [c]) := by
  induction s with
  | nil => simp [replaceGo]
  | cons c cs ih =>
    by_cases h : c = a
    · subst h
      simp [replaceGo, HasPrefix, ih]
    · have h2 : ¬ a = c := fun e => h e.symm
      simp [replaceGo, HasPrefix, ih, h, h2]

theorem replaceGo_char (a b : Char) (s : Str) :
    replaceGo [a] [b] 0 s = s.map (fun c => if c = a then b else c) := by
  rw [replaceGo_single]
  induction s with
  | nil => rfl
  | cons c cs ih =>
    by_cases h : c = a <;> simp [h, ih]

theorem replaceGo_dotdot (new s : Str) :
    replaceGo ['.', '.'] new 0 s = dotdot new s := by
  induction s using dotdot.induct new with
  | case1 => simp [replaceGo, dotdot]
  | case2 a => simp [replaceGo, dotdot, HasPrefix]
  | case3 a b rest h ih =>
    obtain ⟨rfl, rfl⟩ := h
    simp [replaceGo, dotdot, HasPrefix, ih]
  | case4 a b rest h ih =>
    have h2 : ¬ ('.' = a ∧ '.' = b) := fun e => h ⟨e.1.symm, e.2.symm⟩
    simp only [dotdot, if_neg h, ← ih]
    simp [replaceGo, HasPrefix, h2]

theorem mem_replaceGo (old new : Str) (x : Char) (k : Nat) (s : Str)
    (h : x ∈ replaceGo old new k s) : x ∈ new ∨ x ∈ s := by
  induction s generalizing k with
  | nil => simp [replaceGo] at h
  | cons c cs ih =>
    cases k with
    | succ k =>
      simp only [replaceGo] at h
      rcases ih k h with h1 | h1
      · exact Or.inl h1
      · exact Or.inr (List.mem_cons_of_mem _ h1)
    | zero =>
      simp only [replaceGo] at h
      split at h
      · rcases List.mem_append.1 h with h1 | h1
        · exact Or.inl h1
        · rcases ih _ h1 with h2 | h2
          · exact Or.inl h2
          · exact Or.inr (List.mem_cons_of_mem _ h2)
      · rcases List.mem_cons.1 h with h1 | h1
        · exact Or.inr (h1 ▸ List.mem_cons_self _ _)
        · rcases ih _ h1 with h2 | h2
          · exact Or.inl h2
          · exact Or.inr (List.mem_cons_of_mem _ h2)

theorem NoDotDot.not_contains {s : Str} (h : NoDotDot s) : ¬ (['.', '.'] <:+: s) := by
  intro hi
  have h2 := List.Chain'.infix h hi
  simp at h2

theorem noDotDot_of_no_dot (s : Str) (h : '.' ∉ s) : NoDotDot s := by
  unfold NoDotDot
  induction s with
  | nil => exact List.chain'_nil
  | cons a t ih =>
    rw [List.chain'_cons']
    refine ⟨?_, ih (fun hm => h (List.mem_cons_of_mem _ hm))⟩
    intro y _ hy
    exact h (hy.1 ▸ List.mem_cons_self _ _)

/-- What `dotdot` leaves behind starts with a dot only where the input had a
single dot, and holds no two dots in a row. -/
theorem dotdot_noDotDot (new : Str) (hne : new ≠ []) (hnew : '.' ∉ new) (s : Str) :
    NoDotDot (dotdot new s) ∧
    ((dotdot new s).head? = some '.' →
      s.head? = some '.' ∧ s.tail.head? ≠ some '.') := by
  induction s using dotdot.induct new with
  | case1 => simp [dotdot, NoDotDot]
  | case2 a => simp [dotdot, NoDotDot]
  | case3 a b rest h ih =>
    obtain ⟨rfl, rfl⟩ := h
    simp only [dotdot, and_self, if_true]
    constructor
    · unfold NoDotDot
      rw [List.chain'_append]
      refine ⟨noDotDot_of_no_dot new hnew, ih.1, ?_⟩
      intro x hx y _ hxy
      have : x ∈ new := List.mem_of_mem_getLast? hx
      exact hnew (hxy.1 ▸ this)
    · intro hh
      exfalso
      cases new with
      | nil => exact hne rfl
      | cons c cs =>
        simp at hh
        exact hnew (hh ▸ List.mem_cons_self _ _)
  | case4 a b rest h ih =>
    simp only [dotdot, if_neg h]
    constructor
    · unfold NoDotDot
      rw [List.chain'_cons']
      refine ⟨?_, ih.1⟩
      intro y hy hay
      have hy2 : (dotdot new (b :: rest)).head? = some '.' := by
        rw [Option.mem_def] at hy
        rw [hy, hay.2]
      have := (ih.2 hy2).1
      simp at this
      exact h ⟨hay.1, this⟩
    · intro hh
      simp at hh
      subst hh
      simp
      intro hb
      exact h ⟨rfl, hb⟩

/-- Replacing `..` commutes with a character substitution that neither makes
nor removes a dot. -/
theorem dotdot_map (f : Char → Char) (hf : ∀ c, f c = '.' ↔ c = '.') (new s : Str) :
    dotdot (new.map f) (s.map f) = (dotdot new s).map f := by
  induction s using dotdot.induct new with
  | case1 => simp [dotdot]
  | case2 a => simp [dotdot]
  | case3 a b rest h ih =>
    obtain ⟨rfl, rfl⟩ := h
    simp only [List.map_cons, dotdot, (hf '.').2 rfl, and_self, if_true, List.map_append, ih]
  | case4 a b rest h ih =>
    have h2 : ¬ (f a = '.' ∧ f b = '.') := fun e => h ⟨(hf a).1 e.1, (hf b).1 e.2⟩
    simp only [List.map_cons, dotdot, if_neg h, if_neg h2]
    rw [← ih]
    simp

theorem boxFilename_eq (B : Str) :
    boxFilename B = dotdot "back".toList (B.map (fun c => if c = '/' then '-' else c)) := by
  have h1 : ("/".toList : Str) = ['/'] := rfl
  have h2 : ("-".toList : Str) = ['-'] := rfl
  have h3 : ("..".toList : Str) = ['.', '.'] := rfl
  simp only [boxFilename, Replace, h1, h2, h3]
  simp [replaceGo_char, replaceGo_dotdot]

theorem specBoxFilename_eq (B : Str) :
    specBoxFilename B = (dotdot "back".toList B).map (fun c => if c = '/' then '-' else c) := by
  have h1 : ("/".toList : Str) = ['/'] := rfl
  have h2 : ("-".toList : Str) = ['-'] := rfl
  have h3 : ("..".toList : Str) = ['.', '.'] := rfl
  simp only [specBoxFilename, Replace, h1, h2, h3]
  simp [replaceGo_char, replaceGo_dotdot]

theorem symname_eq_map (B : Str) :
    symname B = B.map (fun c => if regexpSynameReplacer c then '_' else c) := by
  have h1 : ("_".toList : Str) = ['_'] := rfl
  simp only [symname, ReplaceAllString, h1]
  induction B with
  | nil => rfl
  | cons c cs ih =>
    by_cases h : regexpSynameReplacer c <;> simp [h, ih]

theorem regexpSynameReplacer_false_iff (c : Char) :
    regexpSynameReplacer c = false ↔ InSymSet c := by
  unfold regexpSynameReplacer InSymSet
  by_cases h1 : 'a' ≤ c <;> by_cases h2 : c ≤ 'z' <;> by_cases h3 : '0' ≤ c <;>
    by_cases h4 : c ≤ '9' <;> by_cases h5 : c = '_' <;> simp [h1, h2, h3, h4, h5]

/-! ## Claims on the names derived from a box name -/

/-- C1: the symbol stem of a box name holds only characters of `[a-z0-9_]`,
has as many characters as the box name, and agrees with the box name at every
position whose character is already in that set; `my.assets/v2` gives
`my_assets_v2` and `../shared` gives `___shared`. -/
theorem symname_sanitized (B : Str) :
    (∀ c ∈ symname B, InSymSet c) ∧
    (symname B).length = B.length ∧
    (∀ (i : Nat) (c : Char), B[i]? = some c → InSymSet c → (symname B)[i]? = some c) ∧
    symname "my.assets/v2".toList = "my_assets_v2".toList ∧
    symname "../shared".toList = "___shared".toList := by
  refine ⟨?_, ?_, ?_, by decide, by decide⟩
  · intro c hc
    rw [symname_eq_map, List.mem_map] at hc
    obtain ⟨d, _, hd⟩ := hc
    by_cases h : regexpSynameReplacer d = true
    · rw [if_pos h] at hd
      subst hd
      exact Or.inr (Or.inr rfl)
    · rw [if_neg h] at hd
      subst hd
      exact (regexpSynameReplacer_false_iff d).1 (by simpa using h)
  · rw [symname_eq_map, List.length_map]
  · intro i c hi hc
    have h := (regexpSynameReplacer_false_iff c).2 hc
    rw [symname_eq_map, List.getElem?_map, hi]
    simp [h]

/-- In bytes the symbol stem is never longer than the box name, and as long
when the box name is ASCII; a character of several bytes becomes the one byte
`_`, as in the two-byte name `é`. -/
theorem symname_byteLen (B : Str) :
    byteLen (symname B) ≤ byteLen B ∧
    ((∀ c ∈ B, c.utf8Size = 1) → byteLen (symname B) = byteLen B) ∧
    byteLen "é".toList = 2 ∧ byteLen (symname "é".toList) = 1 := by
  refine ⟨?_, ?_, by decide, by decide⟩
  · rw [symname_eq_map]
    induction B with
    | nil => simp [byteLen]
    | cons c cs ih =>
      simp only [byteLen, List.map_cons, List.sum_cons] at ih ⊢
      have h1 : (if regexpSynameReplacer c = true then '_' else c).utf8Size ≤ c.utf8Size := by
        split
        · exact Char.utf8Size_pos c
        · exact Nat.le_refl _
      omega
  · intro h
    rw [symname_eq_map]
    induction B with
    | nil => simp [byteLen]
    | cons c cs ih =>
      have ih2 := ih (fun d hd => h d (List.mem_cons_of_mem _ hd))
      simp only [byteLen, List.map_cons, List.sum_cons] at ih2 ⊢
      have h1 : (if regexpSynameReplacer c = true then '_' else c).utf8Size = c.utf8Size := by
        split
        · rw [h c (List.mem_cons_self _ _)]
          decide
        · rfl
      omega

/-- C2: the output file name derived from a box name holds no `/` and no
`..`. -/
theorem boxFilename_safe (B : Str) :
    '/' ∉ boxFilename B ∧ ¬ ("..".toList <:+: boxFilename B) := by
  constructor
  · rw [boxFilename_eq, ← replaceGo_dotdot]
    intro h
    rcases mem_replaceGo _ _ _ _ _ h with h1 | h1
    · revert h1
      decide
    · rw [List.mem_map] at h1
      obtain ⟨d, _, hd⟩ := h1
      by_cases hd2 : d = '/'
      · rw [if_pos hd2] at hd
        revert hd
        decide
      · rw [if_neg hd2] at hd
        exact hd2 hd
  · rw [boxFilename_eq]
    exact (dotdot_noDotDot "back".toList (by decide) (by decide) _).1.not_contains

/-- C4: the file name the code computes (`/` to `-` first, then `..` to
`back`) is the one the specified derivation
`replace(replace(B, "..", "back"), "/", "-")` gives; `../shared` gives
`back-shared` and `my.assets/v2` gives `my.assets-v2`. -/
theorem boxFilename_refines_spec (B : Str) :
    boxFilename B = specBoxFilename B ∧
    boxFilename "../shared".toList = "back-shared".toList ∧
    boxFilename "my.assets/v2".toList = "my.assets-v2".toList := by
  refine ⟨?_, by decide, by decide⟩
  rw [boxFilename_eq, specBoxFilename_eq]
  have hf : ∀ c : Char, (if c = '/' then '-' else c) = '.' ↔ c = '.' := by
    intro c
    by_cases h : c = '/'
    · subst h
      decide
    · simp [h]
  have := dotdot_map (fun c => if c = '/' then '-' else c) hf "back".toList B
  rw [← this]
  rfl

/-! ## `TrimPrefix`, `Replace` and `Join` on paths -/

theorem hasPrefix_append (a b : Str) : HasPrefix (a ++ b) a = true := by
  simp [HasPrefix]

theorem trimPrefix_append (a b : Str) : TrimPrefix (a ++ b) a = b := by
  simp [TrimPrefix, hasPrefix_append]

theorem trimPrefix_self (b : Str) : TrimPrefix b b = [] := by
  have h := trimPrefix_append b []
  simpa using h

/-- `TrimPrefix` gives back the string or what is left of it after some
characters. -/
theorem trimPrefix_drop (s b : Str) : ∃ k, TrimPrefix s b = s.drop k := by
  unfold TrimPrefix
  split
  · exact ⟨_, rfl⟩
  · exact ⟨0, rfl⟩

theorem mem_trimPrefix (s b : Str) (c : Char) (h : c ∈ TrimPrefix s b) : c ∈ s := by
  obtain ⟨k, hk⟩ := trimPrefix_drop s b
  rw [hk] at h
  exact List.mem_of_mem_drop h

theorem trimSlash_cons (x : Str) : TrimPrefix ('/' :: x) ['/'] = x := by
  simp [TrimPrefix, HasPrefix]

theorem trimSlash_of_head (x : Str) (h : x.head? ≠ some '/') : TrimPrefix x ['/'] = x := by
  cases x with
  | nil => simp [TrimPrefix, HasPrefix]
  | cons c cs =>
    have hc : ¬ '/' = c := fun e => h (by rw [← e]; rfl)
    simp [TrimPrefix, HasPrefix, hc]

theorem replace_backslash (s : Str) :
    Replace s "\\".toList "/".toList = s.map slashed := by
  have h1 : ("\\".toList : Str) = ['\\'] := rfl
  have h2 : ("/".toList : Str) = ['/'] := rfl
  simp only [Replace, h1, h2]
  rw [if_neg (by simp), replaceGo_char]
  rfl

/-- Lines 111-113 in one formula. -/
theorem deriveFilename_eq (boxPath path : Str) :
    deriveFilename boxPath path =
      TrimPrefix ((TrimPrefix path boxPath).map slashed) ['/'] := by
  simp only [deriveFilename, replace_backslash]
  rfl

theorem deriveFilename_root (boxPath : Str) : deriveFilename boxPath boxPath = [] := by
  rw [deriveFilename_eq, trimPrefix_self]
  rfl

theorem slashed_ne_slash (c : Char) (h1 : c ≠ '/') (h2 : c ≠ '\\') : slashed c ≠ '/' := by
  simp [slashed, h1, h2]

theorem map_slashed_plain (s : Str) (h : '\\' ∉ s) : s.map slashed = s := by
  conv_rhs => rw [← List.map_id s]
  apply List.map_congr_left
  intro c hc
  have : c ≠ '\\' := fun e => h (e ▸ hc)
  simp [slashed, this]

theorem slashed_sep (sep : Char) (hsep : sep = '/' ∨ sep = '\\') : slashed sep = '/' := by
  rcases hsep with rfl | rfl <;> simp [slashed]

theorem join_cons (a : Str) (rest : List Str) (sep : Str) :
    Join (a :: rest) sep = a ++ rest.flatMap (fun s => sep ++ s) := by
  induction rest generalizing a with
  | nil => simp [Join]
  | cons b rest ih => simp [Join, ih b]

theorem join_concat (pre : List Str) (hne : pre ≠ []) (n sep : Str) :
    Join (pre ++ [n]) sep = Join pre sep ++ sep ++ n := by
  cases pre with
  | nil => exact absurd rfl hne
  | cons a rest => simp [join_cons]

theorem map_flatMap_sep (sep : Char) (hsep : sep = '/' ∨ sep = '\\') (rest : List Str)
    (h : ∀ s ∈ rest, '\\' ∉ s) :
    (rest.flatMap (fun s => [sep] ++ s)).map slashed = rest.flatMap (fun s => ['/'] ++ s) := by
  induction rest with
  | nil => rfl
  | cons b rest ih =>
    have hb := h b (List.mem_cons_self _ _)
    have ih2 := ih (fun s hs => h s (List.mem_cons_of_mem _ hs))
    simp only [List.flatMap_cons, List.map_append, List.map_cons, List.map_nil,
      map_slashed_plain b hb, slashed_sep sep hsep, ih2]

theorem map_join (sep : Char) (hsep : sep = '/' ∨ sep = '\\') (segs : List Str)
    (h : ∀ s ∈ segs, '\\' ∉ s) : (Join segs [sep]).map slashed = Join segs ['/'] := by
  cases segs with
  | nil => rfl
  | cons a rest =>
    rw [join_cons, join_cons, List.map_append, map_slashed_plain a (h a (List.mem_cons_self _ _)),
      map_flatMap_sep sep hsep rest (fun s hs => h s (List.mem_cons_of_mem _ hs))]

/-! ## `Split` and `Join` at `/` -/

theorem splitGo_slash_append (a t : Str) (ha : '/' ∉ a) :
    splitGo ['/'] 0 (a ++ '/' :: t) = a :: splitGo ['/'] 0 t := by
  induction a with
  | nil => simp [splitGo, HasPrefix]
  | cons c a ih =>
    have hc : ¬ '/' = c := fun e => ha (e ▸ List.mem_cons_self _ _)
    have ih2 := ih (fun hm => ha (List.mem_cons_of_mem _ hm))
    simp [splitGo, HasPrefix, hc, ih2]

theorem splitGo_slash_plain (a : Str) (ha : '/' ∉ a) : splitGo ['/'] 0 a = [a] := by
  induction a with
  | nil => simp [splitGo]
  | cons c a ih =>
    have hc : ¬ '/' = c := fun e => ha (e ▸ List.mem_cons_self _ _)
    have ih2 := ih (fun hm => ha (List.mem_cons_of_mem _ hm))
    simp [splitGo, HasPrefix, hc, ih2]

theorem split_join (segs : List Str) (hne : segs ≠ []) (h : ∀ s ∈ segs, '/' ∉ s) :
    Split (Join segs "/".toList) "/".toList = segs := by
  have h2 : ("/".toList : Str) = ['/'] := rfl
  simp only [Split, h2]
  rw [if_neg (by simp)]
  induction segs with
  | nil => exact absurd rfl hne
  | cons a rest ih =>
    cases rest with
    | nil => simpa [Join] using splitGo_slash_plain a (h a (List.mem_cons_self _ _))
    | cons b rest =>
      have h3 := ih (by simp) (fun s hs => h s (List.mem_cons_of_mem _ hs))
      simp only [Join, List.append_assoc, List.singleton_append]
      rw [splitGo_slash_append a _ (h a (List.mem_cons_self _ _)), h3]

theorem parentPath_join (segs : List Str) (hne : segs ≠ []) (h : ∀ s ∈ segs, '/' ∉ s) :
    parentPath (Join segs "/".toList) = Join segs.dropLast "/".toList := by
  simp only [parentPath, split_join segs hne h, List.dropLast_eq_take]

theorem join_eq_nil (segs : List Str) (sep : Str) (h : ∀ s ∈ segs, s ≠ [])
    (hj : Join segs sep = []) : segs = [] := by
  cases segs with
  | nil => rfl
  | cons a rest =>
    rw [join_cons] at hj
    have := h a (List.mem_cons_self _ _)
    simp at hj
    exact absurd hj.1 this

theorem join_injective (s1 s2 : List Str)
    (h1 : ∀ s ∈ s1, s ≠ [] ∧ '/' ∉ s) (h2 : ∀ s ∈ s2, s ≠ [] ∧ '/' ∉ s)
    (hj : Join s1 "/".toList = Join s2 "/".toList) : s1 = s2 := by
  by_cases e1 : s1 = []
  · subst e1
    exact (join_eq_nil s2 _ (fun s hs => (h2 s hs).1) (by rw [← hj]; rfl)).symm
  · by_cases e2 : s2 = []
    · subst e2
      exact join_eq_nil s1 _ (fun s hs => (h1 s hs).1) (by rw [hj]; rfl)
    · rw [← split_join s1 e1 (fun s hs => (h1 s hs).2), hj,
        split_join s2 e2 (fun s hs => (h2 s hs).2)]

theorem plainName_iff (s : Str) : plainName s = true ↔ '/' ∉ s ∧ '\\' ∉ s := by
  simp [plainName]

theorem properName_elim (s : Str) (h : properName s = true) :
    s ≠ [] ∧ '/' ∉ s ∧ '\\' ∉ s := by
  simp only [properName, listedName, Bool.and_eq_true, Bool.not_eq_true', List.isEmpty_eq_false,
    List.contains_eq_any_beq, List.any_eq_false, beq_iff_eq] at h
  refine ⟨h.1.1.1.1, ?_, ?_⟩
  · intro hm
    exact h.1.1.1.2 _ hm rfl
  · intro hm
    exact h.2 _ hm rfl

theorem splitGo_ne_nil (sep : Str) (k : Nat) (s : Str) : splitGo sep k s ≠ [] := by
  induction s generalizing k with
  | nil => cases k <;> simp [splitGo]
  | cons c cs ih =>
    cases k with
    | succ k => simpa [splitGo] using ih k
    | zero =>
      simp only [splitGo]
      split
      · simp
      · split <;> simp

theorem join_cons_cons (c : Char) (p : Str) (ps : List Str) (sep : Str) :
    Join ((c :: p) :: ps) sep = c :: Join (p :: ps) sep := by
  cases ps <;> simp [Join]

/-- `Join` undoes `Split` at `/`, whatever the string. -/
theorem join_splitGo (a : Str) : Join (splitGo ['/'] 0 a) ['/'] = a := by
  induction a with
  | nil => simp [splitGo, Join]
  | cons c a ih =>
    obtain ⟨p, ps, hp⟩ := List.exists_cons_of_ne_nil (splitGo_ne_nil ['/'] 0 a)
    by_cases hc : c = '/'
    · subst hc
      have e : splitGo ['/'] 0 ('/' :: a) = [] :: p :: ps := by
        simp [splitGo, HasPrefix, hp]
      rw [e, Join, ← hp, ih]
      rfl
    · have hc2 : ¬ '/' = c := fun e => hc e.symm
      have e : splitGo ['/'] 0 (c :: a) = (c :: p) :: ps := by
        simp [splitGo, HasPrefix, hc2, hp]
      rw [e, join_cons_cons, ← hp, ih]

theorem splitGo_append_slash (a n : Str) (hn : '/' ∉ n) :
    splitGo ['/'] 0 (a ++ '/' :: n) = splitGo ['/'] 0 a ++ [n] := by
  induction a with
  | nil =>
    have := splitGo_slash_plain n hn
    simp [splitGo, HasPrefix, this]
  | cons c a ih =>
    obtain ⟨p, ps, hp⟩ := List.exists_cons_of_ne_nil (splitGo_ne_nil ['/'] 0 a)
    by_cases hc : c = '/'
    · subst hc
      simp [splitGo, HasPrefix, ih]
    · have hc2 : ¬ '/' = c := fun e => hc e.symm
      simp [splitGo, HasPrefix, hc2, ih, hp]

/-- The parent path of `a/n` is `a`, whatever `a`. -/
theorem parentPath_append_slash (a n : Str) (hn : '/' ∉ n) :
    parentPath (a ++ '/' :: n) = a := by
  have h2 : ("/".toList : Str) = ['/'] := rfl
  simp only [parentPath, Split, h2]
  rw [if_neg (by simp), splitGo_append_slash a n hn]
  simp [join_splitGo]

/-- A path without `/` has the empty parent path. -/
theorem parentPath_plain (f : Str) (h : '/' ∉ f) : parentPath f = [] := by
  have h2 : ("/".toList : Str) = ['/'] := rfl
  simp only [parentPath, Split, h2]
  rw [if_neg (by simp), splitGo_slash_plain f h]
  rfl

/-! ## The name derived from a path, and its parent path -/

theorem hasPrefix_iff (s b : Str) : HasPrefix s b = true ↔ b <+: s := by
  simp [HasPrefix]

/-- Trimming `b` from `P` followed by `c` and `n`: either only a part of `n` is
left, or the trimming is that of `P`, with `P` alone and with `P` and `c`. -/
theorem trimPrefix_append_cases (b P : Str) (c : Char) (n : Str) :
    (∃ k, TrimPrefix (P ++ c :: n) b = n.drop k) ∨
    (TrimPrefix (P ++ c :: n) b = TrimPrefix P b ++ c :: n ∧
     TrimPrefix (P ++ [c]) b = TrimPrefix P b ++ [c]) := by
  by_cases h : b <+: P ++ c :: n
  · by_cases hl : b.length ≤ P.length
    · right
      have hP : b <+: P := List.prefix_of_prefix_length_le h (List.prefix_append _ _) hl
      have h1 : b <+: P ++ [c] := hP.trans (List.prefix_append _ _)
      simp only [TrimPrefix, (hasPrefix_iff _ _).2 h, (hasPrefix_iff _ _).2 hP,
        (hasPrefix_iff _ _).2 h1, if_true]
      exact ⟨List.drop_append_of_le_length hl, List.drop_append_of_le_length hl⟩
    · left
      obtain ⟨m, hm⟩ : ∃ m, b.length - P.length = m + 1 :=
        ⟨b.length - P.length - 1, by omega⟩
      refine ⟨m, ?_⟩
      simp only [TrimPrefix, (hasPrefix_iff _ _).2 h, if_true]
      rw [List.drop_append_eq_append_drop, List.drop_eq_nil_of_le (by omega), hm,
        List.nil_append, List.drop_succ_cons]
  · right
    have hP : ¬ b <+: P := fun hp => h (hp.trans (List.prefix_append _ _))
    have h1 : ¬ b <+: P ++ [c] := fun hp => h (hp.trans ⟨n, by simp⟩)
    have e0 : HasPrefix (P ++ c :: n) b = false := by
      rw [← Bool.not_eq_true, hasPrefix_iff]; exact h
    have e1 : HasPrefix P b = false := by
      rw [← Bool.not_eq_true, hasPrefix_iff]; exact hP
    have e2 : HasPrefix (P ++ [c]) b = false := by
      rw [← Bool.not_eq_true, hasPrefix_iff]; exact h1
    simp [TrimPrefix, e0, e1, e2]

/-- From a path without `/` and backslash the callback derives a name without
`/`. -/
theorem deriveFilename_plain (b X : Str) (h1 : '/' ∉ X) (h2 : '\\' ∉ X) :
    '/' ∉ deriveFilename b X := by
  rw [deriveFilename_eq]
  intro h
  have h3 := mem_trimPrefix _ _ _ h
  obtain ⟨d, hd, hd2⟩ := List.mem_map.1 h3
  have hd3 := mem_trimPrefix _ _ _ hd
  have e1 : d ≠ '/' := fun e => h1 (e ▸ hd3)
  have e2 : d ≠ '\\' := fun e => h2 (e ▸ hd3)
  exact slashed_ne_slash d e1 e2 hd2

theorem isLetter_plain (c : Char) (h : isLetter c = true) : c ≠ '/' ∧ c ≠ '\\' := by
  constructor
  · rintro rfl
    revert h
    decide
  · rintro rfl
    revert h
    decide

theorem isDriveDot_take (dir : Str) (h : isDriveDot dir = true) :
    '/' ∉ dir.take 2 ∧ '\\' ∉ dir.take 2 := by
  match dir, h with
  | [c, d, e], h =>
    simp only [isDriveDot, Bool.and_eq_true, beq_iff_eq] at h
    obtain ⟨⟨h1, h2⟩, _⟩ := h
    have := isLetter_plain c h1
    subst h2
    simp only [List.take_succ_cons, List.take_zero, List.mem_cons, List.mem_nil_iff, or_false,
      not_or]
    exact ⟨⟨fun e => this.1 e.symm, by decide⟩, ⟨fun e => this.2 e.symm, by decide⟩⟩

/-- The name derived for `P`, separator, `n`: its parent path is empty, or it
is the name derived for `P`, which is also the parent path of the name derived
for `P` followed by the separator. -/
theorem parent_of_appended (sep : Char) (hsep : sep = '/' ∨ sep = '\\') (b P n : Str)
    (hn : plainName n = true) :
    parentPath (deriveFilename b (P ++ sep :: n)) = [] ∨
    (parentPath (deriveFilename b (P ++ sep :: n)) = deriveFilename b P ∧
      deriveFilename b (P ++ [sep]) ≠ [] ∧
      parentPath (deriveFilename b (P ++ [sep])) = deriveFilename b P) := by
  obtain ⟨hn1, hn2⟩ := (plainName_iff n).1 hn
  rcases trimPrefix_append_cases b P sep n with ⟨k, hk⟩ | ⟨h1, h2⟩
  · left
    apply parentPath_plain
    rw [deriveFilename_eq, hk]
    intro h
    have h3 := mem_trimPrefix _ _ _ h
    obtain ⟨d, hd, hd2⟩ := List.mem_map.1 h3
    have hd3 := List.mem_of_mem_drop hd
    exact slashed_ne_slash d (fun e => hn1 (e ▸ hd3)) (fun e => hn2 (e ▸ hd3)) hd2
  · have e1 : deriveFilename b (P ++ sep :: n) =
        TrimPrefix ((TrimPrefix P b).map slashed ++ '/' :: n) ['/'] := by
      rw [deriveFilename_eq, h1, List.map_append, List.map_cons, slashed_sep sep hsep,
        map_slashed_plain n hn2]
    have e2 : deriveFilename b (P ++ [sep]) =
        TrimPrefix ((TrimPrefix P b).map slashed ++ ['/']) ['/'] := by
      rw [deriveFilename_eq, h2, List.map_append, List.map_cons, slashed_sep sep hsep]
      rfl
    have e3 := deriveFilename_eq b P
    rw [e1, e2, e3]
    cases hr : (TrimPrefix P b).map slashed with
    | nil =>
      left
      rw [List.nil_append, trimSlash_cons]
      exact parentPath_plain n hn1
    | cons c x =>
      right
      by_cases hc : c = '/'
      · subst hc
        simp only [List.cons_append, trimSlash_cons]
        refine ⟨parentPath_append_slash x n hn1, by simp, ?_⟩
        exact parentPath_append_slash x [] (by simp)
      · have hh : ∀ y : Str, TrimPrefix (c :: x ++ y) ['/'] = c :: x ++ y := by
          intro y
          apply trimSlash_of_head
          simp [hc]
        have hh0 : TrimPrefix (c :: x) ['/'] = c :: x := by
          have := hh []
          simpa using this
        rw [hh, hh, hh0]
        refine ⟨parentPath_append_slash (c :: x) n hn1, by simp, ?_⟩
        exact parentPath_append_slash (c :: x) [] (by simp)

/-- The parent path of the name derived for an entry is empty, or the name
derived for the directory that holds it, or the parent path of that name. -/
theorem parent_of_child (sep : Char) (hsep : sep = '/' ∨ sep = '\\') (b P n : Str)
    (hn : plainName n = true) :
    parentPath (deriveFilename b (filepathJoin sep P n)) = [] ∨
    parentPath (deriveFilename b (filepathJoin sep P n)) = deriveFilename b P ∨
    (deriveFilename b P ≠ [] ∧
      parentPath (deriveFilename b (filepathJoin sep P n)) = parentPath (deriveFilename b P)) := by
  obtain ⟨hn1, hn2⟩ := (plainName_iff n).1 hn
  unfold filepathJoin
  split
  · exact Or.inl (parentPath_plain _ (deriveFilename_plain b n hn1 hn2))
  · split
    · rename_i hd
      obtain ⟨t1, t2⟩ := isDriveDot_take P hd.2
      left
      apply parentPath_plain
      apply deriveFilename_plain
      · intro h
        rcases List.mem_append.1 h with h | h
        · exact t1 h
        · exact hn1 h
      · intro h
        rcases List.mem_append.1 h with h | h
        · exact t2 h
        · exact hn2 h
    · split
      · rename_i hl
        obtain ⟨Q, hQ⟩ := List.getLast?_eq_some_iff.1 hl
        subst hQ
        have e : Q ++ [sep] ++ n = Q ++ sep :: n := by simp
        rw [e]
        rcases parent_of_appended sep hsep b Q n hn with h | ⟨h1, h2, h3⟩
        · exact Or.inl h
        · exact Or.inr (Or.inr ⟨h2, h1.trans h3.symm⟩)
      · rcases parent_of_appended sep hsep b P n hn with h | ⟨h1, _, _⟩
        · exact Or.inl h
        · exact Or.inr (Or.inl h1)

theorem join_head (segs : List Str) (h : ∀ s ∈ segs, s ≠ [] ∧ '/' ∉ s) :
    (Join segs "/".toList).head? ≠ some '/' := by
  cases segs with
  | nil => simp [Join]
  | cons a rest =>
    obtain ⟨h1, h2⟩ := h a (List.mem_cons_self _ _)
    rw [join_cons]
    cases a with
    | nil => exact absurd rfl h1
    | cons c cs =>
      simp only [List.cons_append, List.head?_cons, ne_eq, Option.some.injEq]
      intro e
      exact h2 (e ▸ List.mem_cons_self _ _)

/-- Names joined by the separator do not end in the separator when the last
name is not empty and does not hold it. -/
theorem join_getLast (sep : Char) (segs : List Str) (hne : segs ≠ [])
    (h : ∀ s ∈ segs, s ≠ [] ∧ sep ∉ s) : (Join segs [sep]).getLast? ≠ some sep := by
  obtain ⟨init, last, rfl⟩ : ∃ init last, segs = init ++ [last] :=
    ⟨segs.dropLast, segs.getLast hne, (List.dropLast_append_getLast hne).symm⟩
  obtain ⟨h1, h2⟩ := h last (by simp)
  have e : ∃ X, Join (init ++ [last]) [sep] = X ++ last := by
    by_cases hi : init = []
    · subst hi
      exact ⟨[], by simp [Join]⟩
    · exact ⟨Join init [sep] ++ [sep], by rw [join_concat init hi]⟩
  obtain ⟨X, hX⟩ := e
  rw [hX]
  intro hl
  obtain ⟨ys, hys⟩ := List.getLast?_eq_some_iff.1 hl
  have hmem : sep ∈ last := by
    have h3 : (X ++ last).getLast? = last.getLast? := by
      rw [List.getLast?_append]
      cases hlast : last.getLast? with
      | none =>
        rw [List.getLast?_eq_none_iff] at hlast
        exact absurd hlast h1
      | some y => rfl
    rw [hl] at h3
    exact List.mem_of_getLast?_eq_some h3.symm
  exact h2 hmem

theorem isDriveDot_mem (dir : Str) (h : isDriveDot dir = true) :
    '/' ∉ dir ∧ '\\' ∉ dir := by
  match dir, h with
  | [c, d, e], h =>
    simp only [isDriveDot, Bool.and_eq_true, beq_iff_eq] at h
    obtain ⟨⟨h1, h2⟩, h3⟩ := h
    have := isLetter_plain c h1
    subst h2 h3
    simp only [List.mem_cons, List.mem_nil_iff, or_false, not_or]
    exact ⟨⟨fun e => this.1 e.symm, by decide, by decide⟩,
      ⟨fun e => this.2 e.symm, by decide, by decide⟩⟩

theorem plainRoot_iff (sep : Char) (boxPath : Str) :
    plainRoot sep boxPath = true ↔
      boxPath ≠ [] ∧ boxPath ≠ ['.'] ∧ ¬ (sep = '\\' ∧ isDriveDot boxPath = true) := by
  simp only [plainRoot, Bool.and_eq_true, Bool.not_eq_true', List.isEmpty_eq_false, ne_eq,
    beq_eq_false_iff_ne, Bool.and_eq_false_imp, beq_iff_eq, not_and, Bool.not_eq_true]
  tauto

/-- Below a plain root `filepath.Join` appends the separator and the name to
the path of a directory with proper names. -/
theorem walkedPath_join (sep : Char) (hsep : sep = '/' ∨ sep = '\\') (boxPath : Str)
    (hroot : plainRoot sep boxPath = true) (pre : List Str) (n : Str)
    (hpre : ∀ s ∈ pre, properName s = true) :
    filepathJoin sep (walkedPath sep boxPath pre) n = walkedPath sep boxPath (pre ++ [n]) := by
  obtain ⟨r1, r2, r3⟩ := (plainRoot_iff sep boxPath).1 hroot
  cases pre with
  | nil =>
    simp only [walkedPath, List.nil_append, filepathJoin, r1, r2, or_self, if_false, r3, rootLead,
      Join]
    split <;> simp
  | cons a rest =>
    have hmem : sep ∈ walkedPath sep boxPath (a :: rest) := by
      simp only [walkedPath, rootLead]
      split
      · rename_i hl
        exact List.mem_append_left _ (List.mem_append_left _ (List.mem_of_getLast?_eq_some hl))
      · exact List.mem_append_left _ (List.mem_append_right _ (List.mem_singleton_self _))
    have hsep1 : sep ≠ '.' := by
      rcases hsep with rfl | rfl <;> decide
    have d1 : walkedPath sep boxPath (a :: rest) ≠ [] := List.ne_nil_of_mem hmem
    have d2 : walkedPath sep boxPath (a :: rest) ≠ ['.'] := by
      intro e
      rw [e] at hmem
      exact hsep1 (List.mem_singleton.1 hmem)
    have d3 : ¬ (sep = '\\' ∧ isDriveDot (walkedPath sep boxPath (a :: rest)) = true) := by
      rintro ⟨_, hd⟩
      obtain ⟨t1, t2⟩ := isDriveDot_mem _ hd
      rcases hsep with rfl | rfl
      · exact t1 hmem
      · exact t2 hmem
    have d4 : (walkedPath sep boxPath (a :: rest)).getLast? ≠ some sep := by
      have hj := join_getLast sep (a :: rest) (by simp) (fun s hs => by
        have := properName_elim s (hpre s hs)
        refine ⟨this.1, ?_⟩
        rcases hsep with rfl | rfl
        · exact this.2.1
        · exact this.2.2)
      simp only [walkedPath]
      rw [List.getLast?_append]
      cases hl : (Join (a :: rest) [sep]).getLast? with
      | none =>
        rw [List.getLast?_eq_none_iff] at hl
        have := congrArg List.length hl
        rw [join_cons] at this
        have ha := (properName_elim a (hpre a (List.mem_cons_self _ _))).1
        cases a with
        | nil => exact absurd rfl ha
        | cons c cs => simp at this
      | some y =>
        rw [hl] at hj
        simpa using hj
    simp only [filepathJoin, d1, d2, or_self, if_false, d3, d4]
    have e : walkedPath sep boxPath (a :: rest ++ [n]) =
        boxPath ++ rootLead sep boxPath ++ Join ((a :: rest) ++ [n]) [sep] := rfl
    rw [e, join_concat (a :: rest) (by simp)]
    simp [walkedPath]

/-- Below a plain root the callback derives, from the path of an entry with
proper names, the names joined by `/`. -/
theorem deriveFilename_walkedPath (sep : Char) (hsep : sep = '/' ∨ sep = '\\') (boxPath : Str)
    (segs : List Str) (h : ∀ s ∈ segs, properName s = true) :
    deriveFilename boxPath (walkedPath sep boxPath segs) = Join segs "/".toList := by
  cases segs with
  | nil => exact deriveFilename_root boxPath
  | cons a rest =>
    have hb : ∀ s ∈ a :: rest, '\\' ∉ s := fun s hs => (properName_elim s (h s hs)).2.2
    have hh : ∀ s ∈ a :: rest, s ≠ [] ∧ '/' ∉ s := fun s hs =>
      ⟨(properName_elim s (h s hs)).1, (properName_elim s (h s hs)).2.1⟩
    have h2 : ("/".toList : Str) = ['/'] := rfl
    rw [deriveFilename_eq]
    simp only [walkedPath, List.append_assoc, trimPrefix_append, List.map_append,
      map_join sep hsep (a :: rest) hb, h2]
    unfold rootLead
    split
    · exact trimSlash_of_head _ (join_head (a :: rest) hh)
    · simp only [List.map_cons, List.map_nil, slashed_sep sep hsep, List.singleton_append]
      exact trimSlash_cons _

/-! ## The callback on a sequence of named entries -/

theorem GoMap.get_set {V : Type} (m : GoMap V) (k : Str) (v : V) (key : Str) :
    (m.set k v).get key = if key = k then some v else m.get key := by
  simp [GoMap.set, GoMap.get]

theorem GoMap.has_set {V : Type} (m : GoMap V) (k : Str) (v : V) (key : Str) :
    (m.set k v).has key = true ↔ key = k ∨ m.has key = true := by
  simp only [GoMap.has, GoMap.get_set]
  by_cases h : key = k <;> simp [h]

theorem record_file (st : BoxState) (f : Str) (info : FileInfo) (c : Bytes)
    (h : info.IsDir = false) :
    record st f info c = some { st with box := { st.box with
      Files := st.box.Files.set f { Filename := f, FileModTime := info.ModTime, Content := c } } } := by
  simp [record, h]

theorem record_root (st : BoxState) (info : FileInfo) (c : Bytes) (h : info.IsDir = true) :
    record st [] info c = some
      { box := { st.box with Dirs := st.box.Dirs.set [] st.heap.length },
        heap := st.heap ++ [{ Filename := [], DirModTime := info.ModTime, ChildDirs := [] }] } := by
  simp [record, h]

theorem record_dir (st : BoxState) (f : Str) (info : FileInfo) (c : Bytes)
    (h : info.IsDir = true) (hf : f ≠ []) :
    record st f info c =
      ((st.box.Dirs.set f st.heap.length).get (parentPath f)).map (fun parentDir =>
        { box := { st.box with Dirs := st.box.Dirs.set f st.heap.length },
          heap := appendChild
            (st.heap ++ [{ Filename := f, DirModTime := info.ModTime, ChildDirs := [] }])
            parentDir st.heap.length }) := by
  simp only [record, h, if_true, ne_eq, hf, not_false_eq_true, parentPath]
  split <;> rename_i e <;> rw [e] <;> rfl

/-- What `record` does to the two maps. -/
theorem record_maps (st st1 : BoxState) (f : Str) (info : FileInfo) (c : Bytes)
    (h : record st f info c = some st1) :
    st1.box.Dirs = (if info.IsDir then st.box.Dirs.set f st.heap.length else st.box.Dirs) ∧
    (∀ g, st1.box.Files.has g = true ↔
      (st.box.Files.has g = true ∨ (info.IsDir = false ∧ g = f))) := by
  by_cases hd : info.IsDir = true
  · by_cases hf : f = []
    · subst hf
      rw [record_root st info c hd] at h
      injection h with h
      subst h
      simp [hd]
    · rw [record_dir st f info c hd hf] at h
      cases hp : (st.box.Dirs.set f st.heap.length).get (parentPath f) with
      | none => simp [hp] at h
      | some p =>
        simp only [hp, Option.map_some', Option.some.injEq] at h
        subst h
        simp [hd]
  · have hd2 : info.IsDir = false := by simpa using hd
    rw [record_file st f info c hd2] at h
    injection h with h
    subst h
    simp only [hd2, GoMap.has_set]
    simp
    intro g
    tauto

theorem recordAll_cons (e : Entry) (es : List Entry) (st : BoxState) :
    recordAll (e :: es) st = (record st e.name e.info e.content).bind (recordAll es) := by
  simp [recordAll]

/-- No nil parent: when every parent path is recorded first, the callback
never fails. -/
theorem recordAll_succeeds (es : List Entry) (st : BoxState) (seen : List Str)
    (hseen : ∀ f ∈ seen, st.box.Dirs.has f = true) (hp : ParentsFirst seen es) :
    ∃ st1, recordAll es st = some st1 := by
  induction es generalizing st seen with
  | nil => exact ⟨st, rfl⟩
  | cons e es ih =>
    obtain ⟨h1, h2⟩ := hp
    have hstep : ∃ st1, record st e.name e.info e.content = some st1 := by
      by_cases hd : e.info.IsDir = true
      · by_cases hf : e.name = []
        · rw [hf, record_root st e.info e.content hd]
          exact ⟨_, rfl⟩
        · rw [record_dir st e.name e.info e.content hd hf]
          have hmem := h1 hd hf
          have hhas : (st.box.Dirs.set e.name st.heap.length).has (parentPath e.name) = true := by
            rw [GoMap.has_set]
            rcases List.mem_cons.1 hmem with h | h
            · exact Or.inl h
            · exact Or.inr (hseen _ h)
          simp only [GoMap.has] at hhas
          obtain ⟨p, hp⟩ := Option.isSome_iff_exists.1 hhas
          rw [hp]
          exact ⟨_, rfl⟩
      · have hd2 : e.info.IsDir = false := by simpa using hd
        rw [record_file st e.name e.info e.content hd2]
        exact ⟨_, rfl⟩
    obtain ⟨st1, hst1⟩ := hstep
    have hm := (record_maps st st1 _ _ _ hst1).1
    rw [recordAll_cons, hst1]
    apply ih st1 _ _ h2
    intro f hf
    rw [hm]
    by_cases hd : e.info.IsDir = true
    · simp only [hd, if_true] at hf ⊢
      rw [GoMap.has_set]
      rcases List.mem_cons.1 hf with h | h
      · exact Or.inl h
      · exact Or.inr (hseen _ h)
    · simp only [hd] at hf ⊢
      exact hseen _ hf

theorem recordAll_cons_some (e : Entry) (es : List Entry) (st st1 : BoxState)
    (h : recordAll (e :: es) st = some st1) :
    ∃ st0, record st e.name e.info e.content = some st0 ∧ recordAll es st0 = some st1 := by
  rw [recordAll_cons] at h
  exact Option.bind_eq_some.1 h

/-- The keys of the two maps after the entries are recorded. -/
theorem recordAll_keys (es : List Entry) (st st1 : BoxState) (h : recordAll es st = some st1) :
    (∀ f, st1.box.Dirs.has f = true ↔ (st.box.Dirs.has f = true ∨ f ∈ dirNames es)) ∧
    (∀ f, st1.box.Files.has f = true ↔ (st.box.Files.has f = true ∨ f ∈ fileNames es)) := by
  induction es generalizing st with
  | nil =>
    simp only [recordAll, List.foldlM_nil, pure, Option.some.injEq] at h
    subst h
    simp [dirNames, fileNames]
  | cons e es ih =>
    obtain ⟨st0, h0, h1⟩ := recordAll_cons_some e es st st1 h
    obtain ⟨hd, hf⟩ := ih st0 h1
    obtain ⟨md, mf⟩ := record_maps st st0 _ _ _ h0
    constructor
    · intro f
      rw [hd f, md]
      by_cases hdir : e.info.IsDir = true
      · simp only [hdir, if_true, GoMap.has_set, dirNames, List.filter_cons, List.map_cons,
          List.mem_cons]
        tauto
      · simp only [hdir, dirNames, List.filter_cons]
        simp
    · intro f
      rw [hf f, mf f]
      by_cases hdir : e.info.IsDir = true
      · simp [hdir, fileNames, List.filter_cons]
      · have hd2 : e.info.IsDir = false := by simpa using hdir
        simp only [hd2, fileNames, List.filter_cons, Bool.not_false, if_true, List.map_cons,
          List.mem_cons, true_and]
        tauto

theorem walkListing_eq (boxPath : Str) (sep : Char) (l : Listing) (dir : Str) (pre : List Str)
    (st : BoxState) :
    walkListing (walkFn boxPath) sep dir l st = recordVisits boxPath (walkVisits sep dir pre l) st := by
  induction l generalizing dir pre st with
  | nil => rfl
  | file name modTime content rest ih =>
    simp only [walkListing, walkVisits, recordVisits, List.foldlM_cons]
    cases walkFn boxPath st (filepathJoin sep dir name) { IsDir := false, ModTime := modTime } content with
    | none => rfl
    | some st0 => exact ih dir pre st0
  | dir name modTime entries rest ih1 ih2 =>
    simp only [walkListing, walkVisits, recordVisits, List.foldlM_cons, List.foldlM_append]
    cases walkFn boxPath st (filepathJoin sep dir name) { IsDir := true, ModTime := modTime } [] with
    | none => rfl
    | some st0 =>
      have e1 := ih1 (filepathJoin sep dir name) (pre ++ [name]) st0
      simp only [recordVisits] at e1
      simp only [Option.some_bind, Option.bind_eq_bind]
      rw [e1]
      congr 1
      funext st2
      exact ih2 dir pre st2

theorem buildBox_eq (sep : Char) (boxname boxPath : Str) (now rootModTime : Nat)
    (entries : Listing) :
    buildBox sep boxname boxPath now rootModTime entries =
      recordVisits boxPath (allVisits sep boxPath rootModTime entries) (newBox boxname now) := by
  simp only [buildBox, Walk, allVisits, recordVisits, List.foldlM_cons]
  cases walkFn boxPath (newBox boxname now) boxPath { IsDir := true, ModTime := rootModTime } [] with
  | none => rfl
  | some st0 => exact walkListing_eq boxPath sep entries boxPath [] st0

theorem recordVisits_eq (boxPath : Str) (vs : List Visit) (st : BoxState)
    (h : ∀ v ∈ vs, deriveFilename boxPath v.path = Join v.segs "/".toList) :
    recordVisits boxPath vs st = recordAll (vs.map Visit.entry) st := by
  induction vs generalizing st with
  | nil => rfl
  | cons v vs ih =>
    simp only [recordVisits, recordAll, List.map_cons, List.foldlM_cons, walkFn, Visit.entry,
      h v (List.mem_cons_self _ _)]
    cases record st (Join v.segs "/".toList) v.info v.content with
    | none => rfl
    | some st0 => exact ih st0 (fun w hw => h w (List.mem_cons_of_mem _ hw))

/-- The walk is the callback applied to the entries, each under the name
derived from its path. -/
theorem recordVisits_recorded (boxPath : Str) (vs : List Visit) (st : BoxState) :
    recordVisits boxPath vs st = recordAll (vs.map (Visit.recorded boxPath)) st := by
  induction vs generalizing st with
  | nil => rfl
  | cons v vs ih =>
    simp only [recordVisits, recordAll, List.map_cons, List.foldlM_cons, walkFn, Visit.recorded]
    cases record st (deriveFilename boxPath v.path) v.info v.content with
    | none => rfl
    | some st0 => exact ih st0

/-! ## The visits of a tree: parents first, names distinct, ancestors present -/

/-- The names of a visited entry: those of the directory walked, then names of
the tree. -/
theorem walkVisits_segs (sep : Char) (p : Str → Bool) (l : Listing) (hl : l.allNames p = true)
    (dir : Str) (pre : List Str) :
    ∀ v ∈ walkVisits sep dir pre l, ∃ n t, v.segs = pre ++ n :: t ∧ n ∈ l.names ∧
      ∀ s ∈ n :: t, p s = true := by
  induction l generalizing dir pre with
  | nil => simp [walkVisits]
  | file name modTime content rest ih =>
    simp only [Listing.allNames, Bool.and_eq_true] at hl
    intro v hv
    simp only [walkVisits, List.mem_cons] at hv
    rcases hv with rfl | hv
    · exact ⟨name, [], rfl, by simp [Listing.names], by simpa using hl.1⟩
    · obtain ⟨n, t, h1, h2, h3⟩ := ih hl.2 dir pre v hv
      exact ⟨n, t, h1, by simp [Listing.names, h2], h3⟩
  | dir name modTime entries rest ih1 ih2 =>
    simp only [Listing.allNames, Bool.and_eq_true] at hl
    intro v hv
    simp only [walkVisits, List.mem_cons, List.mem_append] at hv
    rcases hv with rfl | hv | hv
    · exact ⟨name, [], rfl, by simp [Listing.names], by simpa using hl.1.1⟩
    · obtain ⟨n, t, h1, _, h3⟩ := ih1 hl.1.2 _ (pre ++ [name]) v hv
      refine ⟨name, n :: t, by simp [h1], by simp [Listing.names], ?_⟩
      intro s hs
      rcases List.mem_cons.1 hs with rfl | hs
      · exact hl.1.1
      · exact h3 s hs
    · obtain ⟨n, t, h1, h2, h3⟩ := ih2 hl.2 dir pre v hv
      exact ⟨n, t, h1, by simp [Listing.names, h2], h3⟩

theorem ParentsFirst.mono (es : List Entry) (seen seen1 : List Str)
    (hsub : ∀ f ∈ seen, f ∈ seen1) (h : ParentsFirst seen es) : ParentsFirst seen1 es := by
  induction es generalizing seen seen1 with
  | nil => trivial
  | cons e es ih =>
    obtain ⟨h1, h2⟩ := h
    refine ⟨?_, ?_⟩
    · intro hd hf
      rcases List.mem_cons.1 (h1 hd hf) with h | h
      · exact List.mem_cons.2 (Or.inl h)
      · exact List.mem_cons.2 (Or.inr (hsub _ h))
    · apply ih _ _ _ h2
      intro f hf
      by_cases hd : e.info.IsDir = true
      · simp only [hd, if_true] at hf ⊢
        rcases List.mem_cons.1 hf with h | h
        · exact List.mem_cons.2 (Or.inl h)
        · exact List.mem_cons.2 (Or.inr (hsub _ h))
      · simp only [hd] at hf ⊢
        exact hsub _ hf

theorem ParentsFirst.append (a b : List Entry) (seen : List Str)
    (ha : ParentsFirst seen a) (hb : ParentsFirst (dirNames a ++ seen) b) :
    ParentsFirst seen (a ++ b) := by
  induction a generalizing seen with
  | nil => simpa [dirNames] using hb
  | cons e a ih =>
    obtain ⟨h1, h2⟩ := ha
    refine ⟨h1, ?_⟩
    apply ih _ h2
    apply ParentsFirst.mono b _ _ _ hb
    intro f hf
    by_cases hd : e.info.IsDir = true
    · simp only [hd, if_true, dirNames, List.filter_cons, List.map_cons, List.mem_append,
        List.mem_cons] at hf ⊢
      tauto
    · simp only [hd, dirNames, List.filter_cons] at hf ⊢
      simpa using hf

/-- In the walk of a tree whose names hold no `/` and no backslash, the parent
path of the name derived for a directory is a name derived before it: the
empty name of the root, the name of the directory that holds it, or the parent
path of that name. -/
theorem parentsFirst_walk (sep : Char) (hsep : sep = '/' ∨ sep = '\\') (boxPath : Str)
    (l : Listing) (hl : l.allNames plainName = true) (dir : Str) (pre : List Str)
    (seen : List Str) (h0 : [] ∈ seen) (h1 : deriveFilename boxPath dir ∈ seen)
    (h2 : deriveFilename boxPath dir ≠ [] → parentPath (deriveFilename boxPath dir) ∈ seen) :
    ParentsFirst seen ((walkVisits sep dir pre l).map (Visit.recorded boxPath)) := by
  induction l generalizing dir pre seen with
  | nil => trivial
  | file name modTime content rest ih =>
    simp only [Listing.allNames, Bool.and_eq_true] at hl
    simp only [walkVisits, List.map_cons]
    refine ⟨?_, ?_⟩
    · intro hd
      simp [Visit.recorded] at hd
    · simp only [Visit.recorded, Bool.false_eq_true, if_false]
      exact ih hl.2 dir pre seen h0 h1 h2
  | dir name modTime entries rest ih1 ih2 =>
    simp only [Listing.allNames, Bool.and_eq_true] at hl
    have hpar : parentPath (deriveFilename boxPath (filepathJoin sep dir name)) ∈ seen := by
      rcases parent_of_child sep hsep boxPath dir name hl.1.1 with h | h | ⟨h3, h4⟩
      · rw [h]; exact h0
      · rw [h]; exact h1
      · rw [h4]; exact h2 h3
    simp only [walkVisits, List.map_cons, List.map_append]
    refine ⟨?_, ?_⟩
    · intro _ _
      exact List.mem_cons_of_mem _ hpar
    · simp only [Visit.recorded, if_true]
      apply ParentsFirst.append
      · exact ih1 hl.1.2 _ (pre ++ [name]) _ (List.mem_cons_of_mem _ h0)
          (List.mem_cons_self _ _) (fun _ => List.mem_cons_of_mem _ hpar)
      · exact ih2 hl.2 dir pre _
          (List.mem_append_right _ (List.mem_cons_of_mem _ h0))
          (List.mem_append_right _ (List.mem_cons_of_mem _ h1))
          (fun h => List.mem_append_right _ (List.mem_cons_of_mem _ (h2 h)))

theorem allNames_true (l : Listing) : l.allNames (fun _ => true) = true := by
  induction l with
  | nil => rfl
  | file name modTime content rest ih => simp [Listing.allNames, ih]
  | dir name modTime entries rest ih1 ih2 => simp [Listing.allNames, ih1, ih2]

theorem walkVisits_top (sep : Char) (l : Listing) (dir : Str) (pre : List Str) :
    ∀ v ∈ walkVisits sep dir pre l, ∃ n t, v.segs = pre ++ n :: t ∧ n ∈ l.names := by
  intro v hv
  obtain ⟨n, t, h1, h2, _⟩ := walkVisits_segs sep (fun _ => true) l (allNames_true l) dir pre v hv
  exact ⟨n, t, h1, h2⟩

/-- In a tree whose directories hold no name twice, no two visited entries
have the same names. -/
theorem walkVisits_nodup (sep : Char) (l : Listing) (hd : l.distinct = true) (dir : Str)
    (pre : List Str) : ((walkVisits sep dir pre l).map Visit.segs).Nodup := by
  induction l generalizing dir pre with
  | nil => simp [walkVisits]
  | file name modTime content rest ih =>
    simp only [Listing.distinct, Bool.and_eq_true, Bool.not_eq_true', List.contains_eq_any_beq,
      List.any_eq_false, beq_iff_eq] at hd
    simp only [walkVisits, List.map_cons, List.nodup_cons]
    refine ⟨?_, ih hd.2 dir pre⟩
    intro hm
    obtain ⟨v, hv, hvs⟩ := List.mem_map.1 hm
    obtain ⟨n, t, h1, h2⟩ := walkVisits_top sep rest dir pre v hv
    rw [h1] at hvs
    have := List.append_cancel_left hvs
    injection this with e1 e2
    exact hd.1 n h2 e1.symm
  | dir name modTime entries rest ih1 ih2 =>
    simp only [Listing.distinct, Bool.and_eq_true, Bool.not_eq_true', List.contains_eq_any_beq,
      List.any_eq_false, beq_iff_eq] at hd
    simp only [walkVisits, List.map_cons, List.map_append, List.nodup_cons, List.mem_append]
    refine ⟨?_, ?_⟩
    · rintro (hm | hm)
      · obtain ⟨v, hv, hvs⟩ := List.mem_map.1 hm
        obtain ⟨n, t, h1, _⟩ := walkVisits_top sep entries _ (pre ++ [name]) v hv
        rw [h1] at hvs
        have := congrArg List.length hvs
        simp at this
      · obtain ⟨v, hv, hvs⟩ := List.mem_map.1 hm
        obtain ⟨n, t, h1, h2⟩ := walkVisits_top sep rest dir pre v hv
        rw [h1] at hvs
        have := List.append_cancel_left hvs
        injection this with e1 e2
        exact hd.1.1 n h2 e1.symm
    · rw [List.nodup_append]
      refine ⟨ih1 hd.1.2 _ _, ih2 hd.2 dir pre, ?_⟩
      intro s hs1 hs2
      obtain ⟨v, hv, hvs⟩ := List.mem_map.1 hs1
      obtain ⟨w, hw, hws⟩ := List.mem_map.1 hs2
      obtain ⟨n, t, h1, _⟩ := walkVisits_top sep entries _ (pre ++ [name]) v hv
      obtain ⟨m, u, h3, h4⟩ := walkVisits_top sep rest dir pre w hw
      rw [← hws, h3, h1, List.append_assoc] at hvs
      have := List.append_cancel_left hvs
      simp only [List.singleton_append, List.cons.injEq] at this
      exact hd.1.1 m h4 this.1

/-- Every directory above a visited entry, below the directory walked, is
visited as a directory. -/
theorem walkVisits_ancestors (sep : Char) (l : Listing) (dir : Str) (pre : List Str) :
    ∀ v ∈ walkVisits sep dir pre l, ∀ k, pre.length < k → k < v.segs.length →
      ∃ d ∈ walkVisits sep dir pre l, d.info.IsDir = true ∧ d.segs = v.segs.take k := by
  induction l generalizing dir pre with
  | nil => simp [walkVisits]
  | file name modTime content rest ih =>
    intro v hv k hk1 hk2
    simp only [walkVisits, List.mem_cons] at hv
    rcases hv with rfl | hv
    · simp at hk2
      omega
    · obtain ⟨d, hd1, hd2⟩ := ih dir pre v hv k hk1 hk2
      exact ⟨d, List.mem_cons_of_mem _ hd1, hd2⟩
  | dir name modTime entries rest ih1 ih2 =>
    intro v hv k hk1 hk2
    simp only [walkVisits, List.mem_cons, List.mem_append] at hv
    rcases hv with rfl | hv | hv
    · simp at hk2
      omega
    · by_cases hk : k = pre.length + 1
      · refine ⟨_, List.mem_cons_self _ _, rfl, ?_⟩
        obtain ⟨n, t, h1, _⟩ := walkVisits_top sep entries _ (pre ++ [name]) v hv
        rw [h1, hk]
        have : (pre ++ [name]).length = pre.length + 1 := by simp
        rw [← this, List.take_left]
      · obtain ⟨d, hd1, hd2⟩ := ih1 _ (pre ++ [name]) v hv k (by simp; omega) hk2
        exact ⟨d, List.mem_cons_of_mem _ (List.mem_append_left _ hd1), hd2⟩
    · obtain ⟨d, hd1, hd2⟩ := ih2 dir pre v hv k hk1 hk2
      exact ⟨d, List.mem_cons_of_mem _ (List.mem_append_right _ hd1), hd2⟩

/-- Below a plain root the path handed to the callback for an entry with
proper names is the root followed by the names. -/
theorem walkVisits_walkedPath (sep : Char) (hsep : sep = '/' ∨ sep = '\\') (boxPath : Str)
    (hroot : plainRoot sep boxPath = true) (l : Listing) (pre : List Str)
    (hpre : ∀ s ∈ pre, properName s = true) :
    ∀ v ∈ walkVisits sep (walkedPath sep boxPath pre) pre l,
      (∀ s ∈ v.segs, properName s = true) → v.path = walkedPath sep boxPath v.segs := by
  induction l generalizing pre with
  | nil => simp [walkVisits]
  | file name modTime content rest ih =>
    intro v hv hs
    simp only [walkVisits, List.mem_cons] at hv
    rcases hv with rfl | hv
    · exact walkedPath_join sep hsep boxPath hroot pre name hpre
    · exact ih pre hpre v hv hs
  | dir name modTime entries rest ih1 ih2 =>
    intro v hv hs
    simp only [walkVisits, List.mem_cons, List.mem_append] at hv
    rcases hv with rfl | hv | hv
    · exact walkedPath_join sep hsep boxPath hroot pre name hpre
    · obtain ⟨n, t, h1, _⟩ := walkVisits_top sep entries _ (pre ++ [name]) v hv
      have hname : properName name = true := hs name (by rw [h1]; simp)
      have hpre1 : ∀ s ∈ pre ++ [name], properName s = true := by
        intro s hs1
        rcases List.mem_append.1 hs1 with h | h
        · exact hpre s h
        · rw [List.mem_singleton.1 h]; exact hname
      rw [walkedPath_join sep hsep boxPath hroot pre name hpre] at hv
      exact ih1 (pre ++ [name]) hpre1 v hv hs
    · exact ih2 pre hpre v hv hs

/-! ## The whole walk -/

theorem allNames_mono (p q : Str → Bool) (hpq : ∀ s, p s = true → q s = true) (l : Listing)
    (h : l.allNames p = true) : l.allNames q = true := by
  induction l with
  | nil => rfl
  | file name modTime content rest ih =>
    simp only [Listing.allNames, Bool.and_eq_true] at h ⊢
    exact ⟨hpq _ h.1, ih h.2⟩
  | dir name modTime entries rest ih1 ih2 =>
    simp only [Listing.allNames, Bool.and_eq_true] at h ⊢
    exact ⟨⟨hpq _ h.1.1, ih1 h.1.2⟩, ih2 h.2⟩

theorem allVisits_segs (sep : Char) (p : Str → Bool) (boxPath : Str) (rootModTime : Nat)
    (entries : Listing) (hn : entries.allNames p = true) :
    ∀ v ∈ allVisits sep boxPath rootModTime entries, ∀ s ∈ v.segs, p s = true := by
  intro v hv s hs
  simp only [allVisits, List.mem_cons] at hv
  rcases hv with rfl | hv
  · simp at hs
  · obtain ⟨n, t, h1, _, h3⟩ := walkVisits_segs sep p entries hn boxPath [] v hv
    rw [h1] at hs
    exact h3 s (by simpa using hs)

/-- Below a plain root the callback derives, for every visited entry with
proper names, the names joined by `/`. -/
theorem allVisits_derive (sep : Char) (hsep : sep = '/' ∨ sep = '\\') (boxPath : Str)
    (hroot : plainRoot sep boxPath = true) (rootModTime : Nat) (entries : Listing) :
    ∀ v ∈ allVisits sep boxPath rootModTime entries, (∀ s ∈ v.segs, properName s = true) →
      deriveFilename boxPath v.path = Join v.segs "/".toList := by
  intro v hv hs
  have hp : v.path = walkedPath sep boxPath v.segs := by
    simp only [allVisits, List.mem_cons] at hv
    rcases hv with rfl | hv
    · rfl
    · exact walkVisits_walkedPath sep hsep boxPath hroot entries [] (by simp) v hv hs
  rw [hp]
  exact deriveFilename_walkedPath sep hsep boxPath v.segs hs

theorem properName_plain (s : Str) (h : properName s = true) : plainName s = true := by
  obtain ⟨_, h1, h2⟩ := properName_elim s h
  exact (plainName_iff s).2 ⟨h1, h2⟩

/-- The entries recorded by the walk of a tree with plain names come parents
first, whatever the root path. -/
theorem parentsFirst_allVisits (sep : Char) (hsep : sep = '/' ∨ sep = '\\') (boxPath : Str)
    (rootModTime : Nat) (entries : Listing) (hn : entries.allNames plainName = true) :
    ParentsFirst [] ((allVisits sep boxPath rootModTime entries).map (Visit.recorded boxPath)) := by
  simp only [allVisits, List.map_cons]
  refine ⟨?_, ?_⟩
  · intro _ hne
    exact absurd (deriveFilename_root boxPath) hne
  · simp only [Visit.recorded, if_true, deriveFilename_root]
    apply parentsFirst_walk sep hsep boxPath entries hn
    · exact List.mem_cons_self _ _
    · rw [deriveFilename_root]; exact List.mem_cons_self _ _
    · intro h
      exact absurd (deriveFilename_root boxPath) h

/-- Below a plain root and with proper names the walk is the callback applied
to the entries, each under its names joined by `/`. -/
theorem buildBox_eq_recordAll (sep : Char) (hsep : sep = '/' ∨ sep = '\\')
    (boxname boxPath : Str) (hroot : plainRoot sep boxPath = true) (now rootModTime : Nat)
    (entries : Listing) (hn : entries.allNames properName = true) :
    buildBox sep boxname boxPath now rootModTime entries =
      recordAll ((allVisits sep boxPath rootModTime entries).map Visit.entry)
        (newBox boxname now) := by
  rw [buildBox_eq, recordVisits_eq]
  intro v hv
  exact allVisits_derive sep hsep boxPath hroot rootModTime entries v hv
    (allVisits_segs sep properName boxPath rootModTime entries hn v hv)

/-- With names free of `/` and backslash the walk runs to its end, whatever
the root path. -/
theorem buildBox_succeeds (sep : Char) (hsep : sep = '/' ∨ sep = '\\')
    (boxname boxPath : Str) (now rootModTime : Nat) (entries : Listing)
    (hn : entries.allNames plainName = true) :
    ∃ st, buildBox sep boxname boxPath now rootModTime entries = some st := by
  rw [buildBox_eq, recordVisits_recorded]
  exact recordAll_succeeds _ _ [] (by simp)
    (parentsFirst_allVisits sep hsep boxPath rootModTime entries hn)

theorem allVisits_nodup (sep : Char) (boxPath : Str) (rootModTime : Nat) (entries : Listing)
    (hd : entries.distinct = true) :
    ((allVisits sep boxPath rootModTime entries).map Visit.segs).Nodup := by
  simp only [allVisits, List.map_cons, List.nodup_cons]
  refine ⟨?_, walkVisits_nodup sep entries hd boxPath []⟩
  intro hm
  obtain ⟨v, hv, hvs⟩ := List.mem_map.1 hm
  obtain ⟨n, t, h1, _⟩ := walkVisits_top sep entries boxPath [] v hv
  rw [h1] at hvs
  simp at hvs

/-- In a tree with proper, distinct names no two visited entries are recorded
under the same name. -/
theorem allVisits_names_nodup (sep : Char) (boxPath : Str) (rootModTime : Nat)
    (entries : Listing) (hn : entries.allNames properName = true)
    (hd : entries.distinct = true) :
    (((allVisits sep boxPath rootModTime entries).map Visit.entry).map (fun e => e.name)).Nodup := by
  have hsegs := allVisits_segs sep properName boxPath rootModTime entries hn
  have hnd := allVisits_nodup sep boxPath rootModTime entries hd
  have hmap : ((allVisits sep boxPath rootModTime entries).map Visit.entry).map (fun e => e.name)
      = ((allVisits sep boxPath rootModTime entries).map Visit.segs).map
          (fun s => Join s "/".toList) := by
    simp [List.map_map, Visit.entry, Function.comp_def]
  rw [hmap]
  apply List.Nodup.map_on _ hnd
  intro s1 hs1 s2 hs2 hj
  obtain ⟨v1, hv1, rfl⟩ := List.mem_map.1 hs1
  obtain ⟨v2, hv2, rfl⟩ := List.mem_map.1 hs2
  apply join_injective _ _ _ _ hj
  · intro s hs
    have := properName_elim s (hsegs v1 hv1 s hs)
    exact ⟨this.1, this.2.1⟩
  · intro s hs
    have := properName_elim s (hsegs v2 hv2 s hs)
    exact ⟨this.1, this.2.1⟩

theorem fileNames_sublist (es : List Entry) : (fileNames es).Sublist (es.map (fun e => e.name)) :=
  List.Sublist.map _ (List.filter_sublist _)

/-! ## The invariants of the box that is built -/

theorem has_newBox (boxname : Str) (now : Nat) (f : Str) :
    (newBox boxname now).box.Dirs.has f = false ∧ (newBox boxname now).box.Files.has f = false := by
  simp [newBox, GoMap.has, GoMap.get]

theorem mem_dirNames (es : List Entry) (f : Str) :
    f ∈ dirNames es ↔ ∃ e ∈ es, e.info.IsDir = true ∧ e.name = f := by
  simp [dirNames, and_assoc]

theorem mem_fileNames (es : List Entry) (f : Str) :
    f ∈ fileNames es ↔ ∃ e ∈ es, e.info.IsDir = false ∧ e.name = f := by
  simp [fileNames, and_assoc]

/-- The box of a tree with proper, distinct names below a plain root: paths. -/
theorem buildBox_pathsClosed (sep : Char) (hsep : sep = '/' ∨ sep = '\\')
    (boxname boxPath : Str) (hroot : plainRoot sep boxPath = true) (now rootModTime : Nat)
    (entries : Listing)
    (hn : entries.allNames properName = true) (hd : entries.distinct = true)
    (st : BoxState) (h : buildBox sep boxname boxPath now rootModTime entries = some st) :
    PathsClosed st := by
  rw [buildBox_eq_recordAll sep hsep boxname boxPath hroot now rootModTime entries hn] at h
  have hnd := allVisits_names_nodup sep boxPath rootModTime entries hn hd
  have hsegs := allVisits_segs sep properName boxPath rootModTime entries hn
  obtain ⟨kd, kf⟩ := recordAll_keys _ _ _ h
  have hroot : st.box.Dirs.has [] = true := by
    rw [kd]
    right
    simp [allVisits, dirNames, Visit.entry, Join]
  constructor
  · intro f hf
    rw [kd, kf, (has_newBox boxname now f).1, (has_newBox boxname now f).2] at hf
    simp only [Bool.false_eq_true, false_or] at hf
    obtain ⟨e1, he1, hd1, hn1⟩ := (mem_dirNames _ _).1 hf.2
    obtain ⟨e2, he2, hd2, hn2⟩ := (mem_fileNames _ _).1 hf.1
    have := List.inj_on_of_nodup_map hnd he1 he2 (hn1.trans hn2.symm)
    rw [this, hd2] at hd1
    exact absurd hd1 (by simp)
  · intro f hf k hk
    have hv : ∃ v ∈ allVisits sep boxPath rootModTime entries, Join v.segs "/".toList = f := by
      rw [kd, kf, (has_newBox boxname now f).1, (has_newBox boxname now f).2] at hf
      simp only [Bool.false_eq_true, false_or] at hf
      rcases hf with hf | hf
      · obtain ⟨e, he, _, hn1⟩ := (mem_fileNames _ _).1 hf
        obtain ⟨v, hv, rfl⟩ := List.mem_map.1 he
        exact ⟨v, hv, hn1⟩
      · obtain ⟨e, he, _, hn1⟩ := (mem_dirNames _ _).1 hf
        obtain ⟨v, hv, rfl⟩ := List.mem_map.1 he
        exact ⟨v, hv, hn1⟩
    obtain ⟨v, hv, rfl⟩ := hv
    by_cases hs : v.segs = []
    · rw [hs] at hk ⊢
      have e1 : Split (Join ([] : List Str) "/".toList) "/".toList = [[]] := by decide
      rw [e1] at hk ⊢
      have : k = 0 := by simpa using hk
      subst this
      exact hroot
    · have hfree : ∀ s ∈ v.segs, '/' ∉ s := fun s hs1 =>
        (properName_elim s (hsegs v hv s hs1)).2.1
      rw [split_join v.segs hs hfree] at hk ⊢
      by_cases hk0 : k = 0
      · subst hk0
        exact hroot
      · simp only [allVisits, List.mem_cons] at hv
        rcases hv with rfl | hv
        · exact absurd rfl hs
        · obtain ⟨d, hd1, hd2, hd3⟩ := walkVisits_ancestors sep entries boxPath [] v hv k
            (by simp; omega) hk
          rw [kd]
          right
          rw [mem_dirNames]
          refine ⟨d.entry, List.mem_map.2 ⟨d, ?_, rfl⟩, hd2, ?_⟩
          · exact List.mem_cons_of_mem _ hd1
          · simp [Visit.entry, hd3]

/-! ## Claims on the files written and on `createCoffSyso` -/

/-- C3, at the box name `my.assets/v2`: with every write succeeding, the two
COFF objects are written under the raw box name, `my.assets/v2_386.rice-box.syso`
and `my.assets/v2_amd64.rice-box.syso`, not under `boxFilename`, which is
`my.assets-v2` and is used for the helper source file only. -/
theorem syso_path_uses_boxname (defaultMachine : Nat) (pkgName : Str) (gob : Bytes) :
    ∃ out, operationEmbedSysoEmit defaultMachine (fun _ _ => none) (fun _ => true) pkgName
        "my.assets/v2".toList (some gob) = .done out ∧
      out.syso386.path = "my.assets/v2_386.rice-box.syso".toList ∧
      out.sysoAmd64.path = "my.assets/v2_amd64.rice-box.syso".toList ∧
      out.syso386.path ≠ boxFilename "my.assets/v2".toList ++ "_386.rice-box.syso".toList ∧
      out.sysoAmd64.path ≠ boxFilename "my.assets/v2".toList ++ "_amd64.rice-box.syso".toList ∧
      '/' ∈ out.syso386.path ∧
      out.helperPath = "my.assets-v2.rice-box.go".toList := by
  refine ⟨_, rfl, ?_, ?_, ?_, ?_, ?_, ?_⟩ <;> dsimp only <;> decide

/-- C6: `createCoffSyso` panics with `invalid arch` exactly when the
architecture tag is neither `386` nor `amd64`; for `amd64` the object handed
to `writeCoff` has machine field `0x8664`, for `386` the machine field the
library's new object starts with. -/
theorem createCoffSyso_arch (defaultMachine : Nat) (writeCoff : Coff → Str → Option Str)
    (boxFilename symname : Str) (data : Bytes) :
    (∀ arch, createCoffSyso defaultMachine writeCoff boxFilename symname arch data
        = .panic "invalid arch".toList ↔ (arch ≠ "386".toList ∧ arch ≠ "amd64".toList)) ∧
    (∀ arch, (∃ m, createCoffSyso defaultMachine writeCoff boxFilename symname arch data
        = .panic m) ↔ (arch ≠ "386".toList ∧ arch ≠ "amd64".toList)) ∧
    (∃ obj path, obj.Machine = 0x8664 ∧
      createCoffSyso defaultMachine writeCoff boxFilename symname "amd64".toList data =
        match writeCoff obj path with
        | some _ => .exit 1
        | none => .done { path := path, obj := obj }) ∧
    (∃ obj path, obj.Machine = (NewRDATA defaultMachine).Machine ∧
      createCoffSyso defaultMachine writeCoff boxFilename symname "386".toList data =
        match writeCoff obj path with
        | some _ => .exit 1
        | none => .done { path := path, obj := obj }) := by
  refine ⟨?_, ?_, ?_, ?_⟩
  · intro arch
    by_cases h1 : arch = "386".toList
    · subst h1
      simp only [createCoffSyso, if_true]
      split <;> simp
    · by_cases h2 : arch = "amd64".toList
      · subst h2
        simp only [createCoffSyso, if_neg h1, if_true]
        split <;> simp
      · simp only [createCoffSyso, if_neg h1, if_neg h2]
        exact ⟨fun _ => ⟨h1, h2⟩, fun _ => trivial⟩
  · intro arch
    by_cases h1 : arch = "386".toList
    · subst h1
      simp only [createCoffSyso, if_true]
      split <;> simp
    · by_cases h2 : arch = "amd64".toList
      · subst h2
        simp only [createCoffSyso, if_neg h1, if_true]
        split <;> simp
      · simp only [createCoffSyso, if_neg h1, if_neg h2]
        exact ⟨fun _ => ⟨h1, h2⟩, fun _ => ⟨_, rfl⟩⟩
  · exact ⟨_, _, rfl, rfl⟩
  · exact ⟨(((NewRDATA defaultMachine).AddData ("_bricebox_".toList ++ symname) data).AddData
      ("_ericebox_".toList ++ symname) [0, 0]).Freeze, _, rfl, rfl⟩

/-- What `createCoffSyso` builds, whatever the library does at `Freeze`: the
two symbols in order, and as data the blob, then two NUL bytes. -/
theorem createCoffSyso_data (defaultMachine : Nat) (boxFilename symname : Str) (data : Bytes) :
    ∃ f, createCoffSyso defaultMachine (fun _ _ => none) boxFilename symname "386".toList data
        = .done f ∧
      f.obj.Symbols = ["_bricebox_".toList ++ symname, "_ericebox_".toList ++ symname] ∧
      f.obj.Data = [data, [0, 0]] ∧ f.obj.Data.flatten = data ++ [0, 0] ∧
      f.obj.SizeOfRawData = data.length + 2 :=
  ⟨_, rfl, rfl, rfl, by simp [Coff.Freeze, Coff.AddData, NewRDATA], by
    simp [Coff.Freeze, Coff.AddData, NewRDATA, sizedBytes.Size]⟩

/-! ## Claims on the box -/

/-- C8, amended: below a root path that is not empty, not `.` and (with
separator `\`) not the current directory of a drive, for a tree whose entry
names are non-empty, hold no `/` and no backslash, are not `.` or `..` and are
distinct within each directory, the walk builds a box in which no path is a key
of both `Files` and
`Dirs`, and for every path of `Files` or `Dirs` each strict prefix path is a
key of `Dirs`. -/
theorem paths_closed (sep : Char) (hsep : sep = '/' ∨ sep = '\\')
    (boxname boxPath : Str) (hroot : plainRoot sep boxPath = true) (now rootModTime : Nat)
    (entries : Listing) (hn : entries.allNames properName = true)
    (hd : entries.distinct = true) :
    ∃ st, buildBox sep boxname boxPath now rootModTime entries = some st ∧ PathsClosed st := by
  obtain ⟨st, h⟩ := buildBox_succeeds sep hsep boxname boxPath now rootModTime entries
    (allNames_mono _ _ properName_plain entries hn)
  exact ⟨st, h,
    buildBox_pathsClosed sep hsep boxname boxPath hroot now rootModTime entries hn hd st h⟩

/-- C8 at the tree `a/b/c.txt`, walked with the separator `\`. -/
theorem paths_closed_witness :
    ('\\' = '/' ∨ '\\' = '\\') ∧ plainRoot '\\' "C:\\pkg\\assets".toList = true ∧
    nestedTree.allNames properName = true ∧ nestedTree.distinct = true ∧
    ∃ st, buildBox '\\' "assets".toList "C:\\pkg\\assets".toList 0 0 nestedTree = some st ∧
      PathsClosed st :=
  ⟨Or.inr rfl, by decide, by decide, by decide,
    paths_closed '\\' (Or.inr rfl) "assets".toList "C:\\pkg\\assets".toList (by decide) 0 0
      nestedTree (by decide) (by decide)⟩

/-- C8 as stated fails on a tree with one file named `a\b`: the file is
recorded under the path `a/b`, and its prefix path `a` is not in `Dirs`. -/
theorem paths_closed_fails :
    backslashFileTree.allNames listedName = true ∧
    backslashFileTree.distinct = true ∧
    ∃ st, buildBox '/' "assets".toList "/pkg/assets".toList 0 0 backslashFileTree = some st ∧
      st.box.Files.has "a/b".toList = true ∧
      Split "a/b".toList "/".toList = ["a".toList, "b".toList] ∧
      st.box.Dirs.has "a".toList = false ∧
      ¬ PathsClosed st := by
  refine ⟨by decide, by decide, _, rfl, by decide, by decide, by decide, ?_⟩
  intro hc
  have := hc.2 "a/b".toList (Or.inl (by decide)) 1 (by decide)
  revert this
  decide

/-! ## Claims on the derived name and on the parent lookup -/

/-- C9, amended: below a root path that is not empty, not `.` and (with
separator `\`) not the current directory of a drive, walked with separator `/`
or `\`, for every visited entry whose names from the box root down are
non-empty, hold no `/` and no backslash and are not `.` or `..`, the name the
callback derives from the entry's path is those names joined by `/`; it has no
leading `/` and splits
at `/` into those names.  The root yields the empty string whatever the root
path, and `assets/hello.txt` under the root `assets` yields `hello.txt`. -/
theorem deriveFilename_relative (sep : Char) (hsep : sep = '/' ∨ sep = '\\') (boxPath : Str)
    (hroot : plainRoot sep boxPath = true) (rootModTime : Nat) (entries : Listing) :
    (∀ v ∈ allVisits sep boxPath rootModTime entries, (∀ s ∈ v.segs, properName s = true) →
      deriveFilename boxPath v.path = Join v.segs "/".toList ∧
      (deriveFilename boxPath v.path).head? ≠ some '/' ∧
      (v.segs ≠ [] → Split (deriveFilename boxPath v.path) "/".toList = v.segs)) ∧
    deriveFilename boxPath boxPath = [] ∧
    deriveFilename "assets".toList "assets/hello.txt".toList = "hello.txt".toList := by
  refine ⟨?_, deriveFilename_root boxPath, by decide⟩
  intro v hv hs
  have hd := allVisits_derive sep hsep boxPath hroot rootModTime entries v hv hs
  have hfree : ∀ s ∈ v.segs, s ≠ [] ∧ '/' ∉ s := fun s hs1 =>
    ⟨(properName_elim s (hs s hs1)).1, (properName_elim s (hs s hs1)).2.1⟩
  rw [hd]
  exact ⟨rfl, join_head v.segs hfree, fun hne => split_join v.segs hne (fun s hs1 => (hfree s hs1).2)⟩

/-- C9 at a tree with the file `ok.txt` beside a file named `x\y`: the
statement holds of the root and of `ok.txt`. -/
theorem deriveFilename_relative_witness :
    ('/' = '/' ∨ '/' = '\\') ∧ plainRoot '/' "assets".toList = true ∧
    ∀ v ∈ allVisits '/' "assets".toList 0 mixedTree, (∀ s ∈ v.segs, properName s = true) →
      deriveFilename "assets".toList v.path = Join v.segs "/".toList ∧
      (deriveFilename "assets".toList v.path).head? ≠ some '/' ∧
      (v.segs ≠ [] → Split (deriveFilename "assets".toList v.path) "/".toList = v.segs) :=
  ⟨Or.inl rfl, by decide,
    (deriveFilename_relative '/' (Or.inl rfl) "assets".toList (by decide) 0 mixedTree).1⟩

/-- C9 as stated fails for the file named `a\b` in the box root, walked with
the separator `/`: the callback is handed `assets/a\b` and derives `a/b`, which
is not the entry's one-name relative path `a\b`. -/
theorem deriveFilename_relative_fails :
    backslashFileTree.allNames listedName = true ∧
    ∃ v ∈ allVisits '/' "assets".toList 0 backslashFileTree,
      v.segs = ["a\\b".toList] ∧ v.path = "assets/a\\b".toList ∧
      deriveFilename "assets".toList v.path = "a/b".toList ∧
      deriveFilename "assets".toList v.path ≠ Join v.segs "/".toList := by
  decide

/-- The root `.`: `filepath.Join` hands the callback `.hidden`, not `./.hidden`,
and line 111 strips the dot of the name, so `hidden` is derived; a directory
`.a` and a directory `a` are both recorded under `a`. -/
theorem dot_root_strips_name :
    plainRoot '/' ".".toList = false ∧
    (allVisits '/' ".".toList 0 (.file ".hidden".toList 0 [] .nil)).map
        (fun v => (v.path, deriveFilename ".".toList v.path))
      = [(".".toList, []), (".hidden".toList, "hidden".toList)] ∧
    (allVisits '/' ".".toList 0
        (.dir ".a".toList 0 (.dir "sub".toList 0 .nil .nil) (.dir "a".toList 0 .nil .nil))).map
        (fun v => (v.path, deriveFilename ".".toList v.path))
      = [(".".toList, []), (".a".toList, "a".toList), (".a/sub".toList, "a/sub".toList),
          ("a".toList, "a".toList)] := by
  decide

theorem recordVisits_append_some (boxPath : Str) (before : List Visit) (v : Visit)
    (after : List Visit) (st0 st1 : BoxState)
    (h : recordVisits boxPath (before ++ v :: after) st0 = some st1) :
    ∃ st st2, recordVisits boxPath before st0 = some st ∧
      walkFn boxPath st v.path v.info v.content = some st2 := by
  simp only [recordVisits, List.foldlM_append, List.foldlM_cons] at h
  obtain ⟨st, h1, h2⟩ := Option.bind_eq_some.1 h
  obtain ⟨st2, h3, _⟩ := Option.bind_eq_some.1 h2
  exact ⟨st, st2, h1, h3⟩

/-- C10: for a tree whose entry names hold no `/` and no backslash, walked with
separator `/` or `\`, the walk runs to its end, and whenever the callback
reaches a directory with a non-empty derived name, the lookup of its parent
path in `box.Dirs` (line 125) finds a directory, so line 126 does not
dereference nil. -/
theorem parent_lookup_finds (sep : Char) (hsep : sep = '/' ∨ sep = '\\')
    (boxname boxPath : Str) (now rootModTime : Nat) (entries : Listing)
    (hn : entries.allNames plainName = true) :
    (∃ st, buildBox sep boxname boxPath now rootModTime entries = some st) ∧
    ∀ before v after, allVisits sep boxPath rootModTime entries = before ++ v :: after →
      v.info.IsDir = true → deriveFilename boxPath v.path ≠ [] →
      ∃ st parentDir, recordVisits boxPath before (newBox boxname now) = some st ∧
        (st.box.Dirs.set (deriveFilename boxPath v.path) st.heap.length).get
          (parentPath (deriveFilename boxPath v.path)) = some parentDir := by
  obtain ⟨st1, h1⟩ := buildBox_succeeds sep hsep boxname boxPath now rootModTime entries hn
  refine ⟨⟨st1, h1⟩, ?_⟩
  intro before v after hsplit hdir hne
  rw [buildBox_eq, hsplit] at h1
  obtain ⟨st, st2, h2, h3⟩ := recordVisits_append_some boxPath before v after _ _ h1
  simp only [walkFn] at h3
  rw [record_dir st _ v.info v.content hdir hne] at h3
  obtain ⟨p, hp, _⟩ := Option.map_eq_some'.1 h3
  exact ⟨st, p, h2, hp⟩

/-- C10 at the tree `a/b/c.txt`. -/
theorem parent_lookup_finds_witness :
    ('/' = '/' ∨ '/' = '\\') ∧ nestedTree.allNames plainName = true ∧
    ∃ st, buildBox '/' "assets".toList "/pkg/assets".toList 0 0 nestedTree = some st :=
  ⟨Or.inl rfl, by decide,
    (parent_lookup_finds '/' (Or.inl rfl) "assets".toList "/pkg/assets".toList 0 0 nestedTree
      (by decide)).1⟩

/-- A directory named `a\b` whose parent path `a` was never recorded: the
lookup of line 125 finds nothing and the walk panics. -/
theorem nil_parent_with_backslash :
    buildBox '/' "assets".toList "/pkg/assets".toList 0 0 (.dir "a\\b".toList 0 .nil .nil)
      = none := by
  decide

/-! ## Evaluations -/

/-- What `filepath.Join` returns for the roots `.`, `/` and an empty directory
path, for a directory below a root, and on Windows for `C:.` and `C:\`. -/
theorem filepathJoin_evaluations :
    filepathJoin '/' ".".toList "a".toList = "a".toList ∧
    filepathJoin '/' "/".toList "a".toList = "/a".toList ∧
    filepathJoin '/' [] "a".toList = "a".toList ∧
    filepathJoin '/' "/pkg/assets".toList "a".toList = "/pkg/assets/a".toList ∧
    filepathJoin '/' "../assets".toList "a".toList = "../assets/a".toList ∧
    filepathJoin '\\' "C:.".toList "a".toList = "C:a".toList ∧
    filepathJoin '\\' "C:\\".toList "a".toList = "C:\\a".toList ∧
    filepathJoin '\\' "C:\\pkg".toList "a".toList = "C:\\pkg\\a".toList := by
  decide

/-- Below the root `.`, with the directories `.a/sub` and `a`: both `.a` and `a`
are recorded under `a`, and the directory `Dirs` holds for `a` in the end, the
parent of `a/sub`, lists no child. -/
theorem dot_root_box :
    ∃ st, buildBox '/' "assets".toList ".".toList 0 0
        (.dir ".a".toList 0 (.dir "sub".toList 0 .nil .nil) (.dir "a".toList 0 .nil .nil))
        = some st ∧
      st.box.Dirs.get "a/sub".toList = some 2 ∧
      st.box.Dirs.get (parentPath "a/sub".toList) = some 3 ∧
      st.heap[3]? = some { Filename := "a".toList, DirModTime := 0, ChildDirs := [] } :=
  ⟨_, rfl, by decide, by decide, by decide⟩

/-- Below the root `/` the walk hands `/a` and `/a/b`, and the names derived
are `a` and `a/b`. -/
theorem slash_root_evaluation :
    plainRoot '/' "/".toList = true ∧
    (allVisits '/' "/".toList 0 (.dir "a".toList 0 (.file "b".toList 0 [] .nil) .nil)).map
        (fun v => (v.path, deriveFilename "/".toList v.path))
      = [("/".toList, []), ("/a".toList, "a".toList), ("/a/b".toList, "a/b".toList)] := by
  decide

/-- `Split` keeps empty segments, and the empty string splits into one empty
segment. -/
theorem split_evaluations :
    Split "a/b//c".toList "/".toList = ["a".toList, "b".toList, [], "c".toList] ∧
    Split [] "/".toList = [[]] := by
  decide

/-- The scan for `..` takes matches left to right without overlap. -/
theorem boxFilename_evaluations :
    boxFilename "a/.../b....".toList = "a-back.-bbackback".toList ∧
    boxFilename "a/../b".toList = "a-back-b".toList ∧
    specBoxFilename "a/../b".toList = "a-back-b".toList := by
  decide

end GoRice
